import Mathlib

/-!
Verification of the cargo-vet store layer (`src/format.rs`, `src/storage.rs`)
against its natural-language specification.

Rust strings are modelled as `List Char` (`Str`), `BTreeMap` as an association
list in key order, and the derived `Ord`/`PartialOrd` instances as explicit
`Ordering`-valued comparators mirroring the field order of the Rust derive.
-/

namespace CargoVet

/-- Rust `String` / `&str`, modelled as its list of characters. -/
abbrev Str := List Char

/-! ### Ordering combinators

Rust's derived `Ord` compares fields left to right, which is `Ordering.then`
composition. We reuse `Batteries.OrientedCmp` / `Batteries.TransCmp` for
the comparator laws. -/

theorem Ordering.then_eq_of_ne_eq {a b : Ordering} (h : a ≠ Ordering.eq) :
    a.then b = a := by
  cases a <;> simp_all [Ordering.then]

theorem Ordering.then_eq_right (b : Ordering) : Ordering.eq.then b = b := rfl

theorem Ordering.then_eq_left (a : Ordering) : a.then Ordering.eq = a := by
  cases a <;> rfl

theorem Ordering.swap_then (a b : Ordering) :
    (a.then b).swap = a.swap.then b.swap := by
  cases a <;> rfl

/-- Lexicographic composition of two comparators on the same type,
as produced by Rust's derived `Ord` on a two-field struct. -/
def thenCmp (c₁ c₂ : α → α → Ordering) (a b : α) : Ordering :=
  (c₁ a b).then (c₂ a b)

theorem thenCmp_transCmp {c₁ c₂ : α → α → Ordering}
    (h₁ : Batteries.TransCmp c₁) (h₂ : Batteries.TransCmp c₂) :
    Batteries.TransCmp (thenCmp c₁ c₂) := by
  haveI := h₁; haveI := h₂
  refine { symm := ?_, le_trans := ?_ }
  · intro a b
    simp only [thenCmp, Ordering.swap_then, Batteries.OrientedCmp.symm]
  · intro a b c hab hbc
    simp only [thenCmp] at *
    cases hcab : c₁ a b with
    | gt => rw [hcab] at hab; exact absurd rfl hab
    | lt =>
      cases hcbc : c₁ b c with
      | gt => rw [hcbc] at hbc; exact absurd rfl hbc
      | lt =>
        have : c₁ a c = .lt := Batteries.TransCmp.lt_trans hcab hcbc
        simp [this, Ordering.then]
      | eq =>
        have : c₁ a c = .lt := by
          rw [← Batteries.TransCmp.cmp_congr_right hcbc]; exact hcab
        simp [this, Ordering.then]
    | eq =>
      cases hcbc : c₁ b c with
      | gt => rw [hcbc] at hbc; exact absurd rfl hbc
      | lt =>
        have : c₁ a c = .lt := by
          rw [Batteries.TransCmp.cmp_congr_left hcab]; exact hcbc
        simp [this, Ordering.then]
      | eq =>
        have hac : c₁ a c = .eq := by
          rw [Batteries.TransCmp.cmp_congr_left hcab]; exact hcbc
        rw [hcab] at hab; rw [hcbc] at hbc; rw [hac]
        rw [Ordering.then_eq_right] at *
        exact Batteries.TransCmp.le_trans hab hbc

/-- Comparator obtained by comparing the images under `f`, as in Rust's
derived `Ord` delegating to a field. -/
def onCmp (c : β → β → Ordering) (f : α → β) (a b : α) : Ordering :=
  c (f a) (f b)

theorem onCmp_transCmp {c : β → β → Ordering} (f : α → β)
    (h : Batteries.TransCmp c) : Batteries.TransCmp (onCmp c f) := by
  refine { symm := ?_, le_trans := ?_ }
  · intro a b; exact h.symm (f a) (f b)
  · intro a b x hab hbx; exact h.le_trans hab hbx

/-- Lexicographic comparison of lists (Rust slice / `Vec` `Ord`): element by
element, a strict prefix compares less. -/
def listCmp (c : α → α → Ordering) : List α → List α → Ordering
  | [], [] => .eq
  | [], _ :: _ => .lt
  | _ :: _, [] => .gt
  | a :: as, b :: bs => (c a b).then (listCmp c as bs)

theorem listCmp_symm {c : α → α → Ordering} (h : ∀ a b, (c a b).swap = c b a) :
    ∀ x y, (listCmp c x y).swap = listCmp c y x
  | [], [] => rfl
  | [], _ :: _ => rfl
  | _ :: _, [] => rfl
  | a :: as, b :: bs => by
    simp only [listCmp, Ordering.swap_then, h, listCmp_symm h as bs]

theorem listCmp_transCmp (c : α → α → Ordering) (hc : Batteries.TransCmp c) :
    Batteries.TransCmp (listCmp c) := by
  haveI := hc
  refine { symm := ?_, le_trans := ?_ }
  · intro a b
    exact listCmp_symm (fun x y => Batteries.OrientedCmp.symm x y) a b
  · intro x y z hxy hyz
    induction x generalizing y z with
    | nil => cases z <;> simp [listCmp]
    | cons a as ih =>
      cases y with
      | nil => simp [listCmp] at hxy
      | cons b bs =>
        cases z with
        | nil => simp [listCmp] at hyz
        | cons d ds =>
          simp only [listCmp] at hxy hyz ⊢
          cases hab : c a b with
          | gt => rw [hab] at hxy; exact absurd rfl hxy
          | lt =>
            cases hbd : c b d with
            | gt => rw [hbd] at hyz; exact absurd rfl hyz
            | lt =>
              have : c a d = .lt := Batteries.TransCmp.lt_trans hab hbd
              simp [this, Ordering.then]
            | eq =>
              have : c a d = .lt := by
                rw [← Batteries.TransCmp.cmp_congr_right hbd]; exact hab
              simp [this, Ordering.then]
          | eq =>
            cases hbd : c b d with
            | gt => rw [hbd] at hyz; exact absurd rfl hyz
            | lt =>
              have : c a d = .lt := by
                rw [Batteries.TransCmp.cmp_congr_left hab]; exact hbd
              simp [this, Ordering.then]
            | eq =>
              have had : c a d = .eq := by
                rw [Batteries.TransCmp.cmp_congr_left hab]; exact hbd
              rw [hab, Ordering.then_eq_right] at hxy
              rw [hbd, Ordering.then_eq_right] at hyz
              rw [had, Ordering.then_eq_right]
              exact ih hxy hyz

/-- Comparison on `Option` as derived in Rust: `None` is less than `Some`. -/
def optionCmp (c : α → α → Ordering) : Option α → Option α → Ordering
  | none, none => .eq
  | none, some _ => .lt
  | some _, none => .gt
  | some a, some b => c a b

theorem optionCmp_transCmp (c : α → α → Ordering) (hc : Batteries.TransCmp c) :
    Batteries.TransCmp (optionCmp c) := by
  refine { symm := ?_, le_trans := ?_ }
  · intro a b
    cases a <;> cases b
    · rfl
    · rfl
    · rfl
    · exact hc.symm _ _
  · intro a b d hab hbd
    cases a <;> cases b <;> cases d <;> simp_all [optionCmp]
    exact hc.le_trans hab hbd

/-- Rust `char` comparison (by scalar value). -/
def charCmp (a b : Char) : Ordering := compare a b

theorem charCmp_transCmp : Batteries.TransCmp charCmp :=
  inferInstanceAs (Batteries.TransCmp (compare : Char → Char → Ordering))

/-- Rust `String` comparison: lexicographic by character. -/
def strCmp : Str → Str → Ordering := listCmp charCmp

theorem strCmp_transCmp : Batteries.TransCmp strCmp :=
  listCmp_transCmp charCmp charCmp_transCmp

/-- Rust `u64` comparison. -/
def natCmp (a b : Nat) : Ordering := compare a b

theorem natCmp_transCmp : Batteries.TransCmp natCmp :=
  inferInstanceAs (Batteries.TransCmp (compare : Nat → Nat → Ordering))

theorem charCmp_eq_iff {a b : Char} : charCmp a b = .eq ↔ a = b := by
  unfold charCmp
  exact Batteries.BEqCmp.cmp_iff_eq

theorem strCmp_eq_iff : ∀ {a b : Str}, strCmp a b = .eq ↔ a = b := by
  intro a
  induction a with
  | nil => intro b; cases b <;> simp [strCmp, listCmp]
  | cons x xs ih =>
    intro b
    cases b with
    | nil => simp [strCmp, listCmp]
    | cons y ys =>
      simp only [strCmp, listCmp] at *
      constructor
      · intro h
        have hxy : charCmp x y = .eq := by
          by_contra hne
          rw [Ordering.then_eq_of_ne_eq hne] at h; exact hne h
        rw [hxy, Ordering.then_eq_right] at h
        rw [charCmp_eq_iff.mp hxy, (ih.mp h : xs = ys)]
      · intro h
        cases h
        rw [(charCmp_eq_iff.mpr rfl : charCmp x x = .eq), Ordering.then_eq_right]
        exact ih.mpr rfl

theorem strCmp_refl (a : Str) : strCmp a a = .eq := strCmp_eq_iff.mpr rfl

/-- Strict "less than" on strings, used for `BTreeMap` key order. -/
def strLt (a b : Str) : Prop := strCmp a b = .lt

instance : DecidableRel strLt := fun a b => inferInstanceAs (Decidable (_ = _))

theorem strLt_irrefl (a : Str) : ¬strLt a a := by
  simp [strLt, strCmp_refl]

theorem strLt_trans {a b c : Str} (h₁ : strLt a b) (h₂ : strLt b c) :
    strLt a c := by
  haveI := strCmp_transCmp
  exact Batteries.TransCmp.lt_trans h₁ h₂

/-- Lookup in an association list, the model of `BTreeMap::get`. -/
def alookup (k : Str) : List (Str × α) → Option α
  | [] => none
  | (k', v) :: rest => if k = k' then some v else alookup k rest

/-- Key order of an association list modelling a `BTreeMap`:
strictly increasing keys. -/
def KeySorted (l : List (Str × α)) : Prop :=
  l.Pairwise fun a b => strLt a.1 b.1

theorem alookup_eq_some_of_mem {l : List (Str × α)} {k : Str} {v : α}
    (hs : KeySorted l) (hm : (k, v) ∈ l) : alookup k l = some v := by
  induction l with
  | nil => cases hm
  | cons p rest ih =>
    obtain ⟨k', v'⟩ := p
    rcases List.mem_cons.mp hm with h | h
    · obtain ⟨rfl, rfl⟩ := Prod.mk.injEq .. ▸ h
      simp [alookup]
    · have hlt : strLt k' k := (List.pairwise_cons.mp hs).1 _ h
      have hne : k ≠ k' := by
        rintro rfl; exact strLt_irrefl k hlt
      simp only [alookup, if_neg hne]
      exact ih (List.pairwise_cons.mp hs).2 h

theorem mem_of_alookup_eq_some {l : List (Str × α)} {k : Str} {v : α}
    (h : alookup k l = some v) : (k, v) ∈ l := by
  induction l with
  | nil => simp [alookup] at h
  | cons p rest ih =>
    obtain ⟨k', v'⟩ := p
    by_cases hk : k = k'
    · subst hk
      simp only [alookup, if_true, eq_self_iff_true, Option.some.injEq] at h
      subst h; exact List.mem_cons_self ..
    · simp only [alookup, if_neg hk] at h
      exact List.mem_cons_of_mem _ (ih h)

/-! ### Versions (`format.rs`, `VetVersion`)

The semver part comes from the external `semver` crate; it is modelled as the
`major.minor.patch[-pre][+build]` record with its crate ordering (a release
compares above its own pre-releases), with the crate's per-identifier
pre-release comparison simplified to character-lexicographic comparison.
No claim in scope depends on that refinement. -/

structure Semver where
  major : Nat
  minor : Nat
  patch : Nat
  pre : Str
  build : Str
deriving DecidableEq

/-- Pre-release comparison: an empty pre-release (a release) is greater
than any non-empty one; non-empty pre-releases compare lexicographically. -/
def preCmp : Str → Str → Ordering
  | [], [] => .eq
  | [], _ :: _ => .gt
  | _ :: _, [] => .lt
  | a :: as, b :: bs => strCmp (a :: as) (b :: bs)

/-- Build-metadata comparison: empty build metadata is least. -/
def buildCmp : Str → Str → Ordering
  | [], [] => .eq
  | [], _ :: _ => .lt
  | _ :: _, [] => .gt
  | a :: as, b :: bs => strCmp (a :: as) (b :: bs)

/-- The `semver` crate's `Ord for Version`. -/
def semverCmp (a b : Semver) : Ordering :=
  (natCmp a.major b.major).then <| (natCmp a.minor b.minor).then <|
    (natCmp a.patch b.patch).then <| (preCmp a.pre b.pre).then
      (buildCmp a.build b.build)

theorem preCmp_transCmp : Batteries.TransCmp preCmp := by
  haveI := strCmp_transCmp
  refine { symm := ?_, le_trans := ?_ }
  · intro a b
    cases a <;> cases b
    · rfl
    · rfl
    · rfl
    · exact strCmp_transCmp.symm _ _
  · intro a b c hab hbc
    cases a <;> cases b <;> cases c <;> simp_all [preCmp]
    exact strCmp_transCmp.le_trans hab hbc

theorem buildCmp_transCmp : Batteries.TransCmp buildCmp := by
  refine { symm := ?_, le_trans := ?_ }
  · intro a b
    cases a <;> cases b
    · rfl
    · rfl
    · rfl
    · exact strCmp_transCmp.symm _ _
  · intro a b c hab hbc
    cases a <;> cases b <;> cases c <;> simp_all [buildCmp]
    exact strCmp_transCmp.le_trans hab hbc

theorem preCmp_eq_iff : ∀ {a b : Str}, preCmp a b = .eq ↔ a = b := by
  intro a b
  cases a <;> cases b <;> simp [preCmp, strCmp_eq_iff]

theorem buildCmp_eq_iff : ∀ {a b : Str}, buildCmp a b = .eq ↔ a = b := by
  intro a b
  cases a <;> cases b <;> simp [buildCmp, strCmp_eq_iff]

theorem natCmp_eq_iff {a b : Nat} : natCmp a b = .eq ↔ a = b := by
  unfold natCmp
  exact Batteries.BEqCmp.cmp_iff_eq

theorem semverCmp_transCmp : Batteries.TransCmp semverCmp := by
  have h : Batteries.TransCmp (thenCmp (onCmp natCmp Semver.major) <|
      thenCmp (onCmp natCmp Semver.minor) <| thenCmp (onCmp natCmp Semver.patch) <|
        thenCmp (onCmp preCmp Semver.pre) (onCmp buildCmp Semver.build)) :=
    thenCmp_transCmp (onCmp_transCmp _ natCmp_transCmp) <|
      thenCmp_transCmp (onCmp_transCmp _ natCmp_transCmp) <|
        thenCmp_transCmp (onCmp_transCmp _ natCmp_transCmp) <|
          thenCmp_transCmp (onCmp_transCmp _ preCmp_transCmp)
            (onCmp_transCmp _ buildCmp_transCmp)
  exact h

theorem thenCmp_eq_iff {a b : Ordering} :
    a.then b = .eq ↔ a = .eq ∧ b = .eq := by
  cases a <;> simp [Ordering.then]

theorem semverCmp_eq_iff {a b : Semver} : semverCmp a b = .eq ↔ a = b := by
  obtain ⟨a1, a2, a3, a4, a5⟩ := a
  obtain ⟨b1, b2, b3, b4, b5⟩ := b
  simp [semverCmp, thenCmp_eq_iff, natCmp_eq_iff, preCmp_eq_iff, buildCmp_eq_iff,
    Semver.mk.injEq, and_assoc]

theorem semverCmp_refl (a : Semver) : semverCmp a a = .eq := semverCmp_eq_iff.mpr rfl

/-- `format.rs`: `VetVersion { semver, git_rev }`, a semver version with an
optional opaque git revision suffix. -/
structure VetVersion where
  semver : Semver
  gitRev : Option Str
deriving DecidableEq

/-- The `Ord` instance of `VetVersion` as derived in `format.rs`
(line 62): fields in declaration order, `None < Some` on `git_rev`. -/
def vetVersionCmp (a b : VetVersion) : Ordering :=
  (semverCmp a.semver b.semver).then (optionCmp strCmp a.gitRev b.gitRev)

/-- The `PartialOrd` instance of `VetVersion` as derived in `format.rs`:
derived `PartialOrd` on a struct of total orders always returns a verdict. -/
def vetVersionPartialCmp (a b : VetVersion) : Option Ordering :=
  some (vetVersionCmp a b)

theorem vetVersionCmp_transCmp : Batteries.TransCmp vetVersionCmp := by
  have h : Batteries.TransCmp (thenCmp (onCmp semverCmp VetVersion.semver)
      (onCmp (optionCmp strCmp) VetVersion.gitRev)) :=
    thenCmp_transCmp (onCmp_transCmp _ semverCmp_transCmp)
      (onCmp_transCmp _ (optionCmp_transCmp _ strCmp_transCmp))
  exact h

theorem optionCmp_eq_iff {c : α → α → Ordering}
    (hc : ∀ {x y : α}, c x y = .eq ↔ x = y) :
    ∀ {a b : Option α}, optionCmp c a b = .eq ↔ a = b := by
  intro a b
  cases a <;> cases b <;> simp [optionCmp, hc]

theorem vetVersionCmp_eq_iff {a b : VetVersion} :
    vetVersionCmp a b = .eq ↔ a = b := by
  obtain ⟨a1, a2⟩ := a
  obtain ⟨b1, b2⟩ := b
  simp [vetVersionCmp, thenCmp_eq_iff, semverCmp_eq_iff,
    optionCmp_eq_iff (fun {x y} => strCmp_eq_iff), VetVersion.mk.injEq]

/-- C1 counterexample: `1.0.0` and `1.0.0@git:a` share the semver part,
exactly one carries a git revision, they are not equal, and yet the derived
`PartialOrd` of `VetVersion` returns a verdict (`Some(Less)`) rather than
treating them as incomparable. -/
theorem vetVersion_git_incomparable_counterexample :
    vetVersionPartialCmp ⟨⟨1, 0, 0, [], []⟩, none⟩ ⟨⟨1, 0, 0, [], []⟩, some ['a']⟩
        = some .lt ∧
      (⟨⟨1, 0, 0, [], []⟩, none⟩ : VetVersion) ≠ ⟨⟨1, 0, 0, [], []⟩, some ['a']⟩ := by
  exact ⟨by decide, by decide⟩

/-- C1 (amended): the comparison on `VetVersion` is total, not partial.
With equal semver parts, the version without a git revision suffix orders
strictly below the one with a suffix; on versions without git revision
suffixes the order is exactly semver order; and the comparison returns
`eq` exactly on equal versions. -/
theorem vetVersion_order_amended :
    (∀ s r, vetVersionPartialCmp ⟨s, none⟩ ⟨s, some r⟩ = some .lt) ∧
      (∀ v w : VetVersion, v.gitRev = none → w.gitRev = none →
        vetVersionCmp v w = semverCmp v.semver w.semver) ∧
      (∀ v w : VetVersion, vetVersionCmp v w = .eq ↔ v = w) := by
  refine ⟨?_, ?_, fun v w => vetVersionCmp_eq_iff⟩
  · intro s r
    simp [vetVersionPartialCmp, vetVersionCmp, semverCmp_refl, optionCmp,
      Ordering.then_eq_right]
  · intro v w hv hw
    simp [vetVersionCmp, hv, hw, optionCmp, Ordering.then_eq_left]

/-- C1 amended-claim witness at concrete versions. -/
theorem vetVersion_order_amended_witness :
    vetVersionCmp ⟨⟨1, 2, 3, [], []⟩, none⟩ ⟨⟨2, 0, 0, [], []⟩, none⟩
      = semverCmp ⟨1, 2, 3, [], []⟩ ⟨2, 0, 0, [], []⟩ :=
  vetVersion_order_amended.2.1 _ _ rfl rfl

/-! ### String scanning utilities

Models of the `str` methods used by `VetVersion::parse` and
`Delta::deserialize`: `split_once`, `strip_prefix`, `trim`,
and decimal printing/parsing of version numbers. -/

/-- Decimal digit to character, as in `u64` display. -/
def digitToChar (d : Nat) : Char := Char.ofNat (48 + d)

/-- Character back to decimal digit value. -/
def charToDigit (c : Char) : Nat := c.toNat - 48

/-- Decimal representation of a `u64`, most significant digit first. -/
def natToDigits (n : Nat) : Str :=
  if h : n < 10 then [digitToChar n]
  else natToDigits (n / 10) ++ [digitToChar (n % 10)]
decreasing_by exact Nat.div_lt_self (by omega) (by omega)

/-- Value of a digit string, most significant digit first. -/
def digitsToNat (ds : Str) : Nat :=
  ds.foldl (fun a c => a * 10 + charToDigit c) 0

/-- Parse a non-empty all-digit string as a number (the fragment of
`u64::from_str` exercised by version strings). -/
def parseNat (ds : Str) : Option Nat :=
  if !ds.isEmpty && ds.all Char.isDigit then some (digitsToNat ds) else none

/-- Rust `str::split_once(char)`: split around the first occurrence. -/
def splitOnceChar (c : Char) : Str → Option (Str × Str)
  | [] => none
  | x :: xs =>
    if x = c then some ([], xs)
    else (splitOnceChar c xs).map fun p => (x :: p.1, p.2)

/-- Strip a leading pattern, the model of `str::strip_prefix(pat)`. -/
def stripSeq : Str → Str → Option Str
  | [], s => some s
  | _ :: _, [] => none
  | p :: ps, x :: xs => if x = p then stripSeq ps xs else none

/-- Rust `str::split_once(&str)`: split around the first occurrence of a
multi-character pattern. -/
def splitOnceStr (sep : Str) : Str → Option (Str × Str)
  | [] => none
  | x :: xs =>
    match stripSeq sep (x :: xs) with
    | some rest => some ([], rest)
    | none => (splitOnceStr sep xs).map fun p => (x :: p.1, p.2)

/-- ASCII whitespace, the fragment of Unicode whitespace that can appear in
delta strings. -/
def isWsChar (c : Char) : Bool := c = ' ' || c = '\t' || c = '\n' || c = '\r'

/-- Rust `str::trim_start`. -/
def trimStart (s : Str) : Str := s.dropWhile isWsChar

/-- Rust `str::trim_end`. -/
def trimEnd (s : Str) : Str := (s.reverse.dropWhile isWsChar).reverse

/-- Rust `str::trim`. -/
def trimChars (s : Str) : Str := trimEnd (trimStart s)

theorem charToDigit_digitToChar : ∀ d, d < 10 → charToDigit (digitToChar d) = d := by
  decide

theorem isDigit_digitToChar : ∀ d, d < 10 → (digitToChar d).isDigit = true := by
  decide

theorem natToDigits_ne_nil (n : Nat) : natToDigits n ≠ [] := by
  rw [natToDigits]
  split
  · simp
  · simp

theorem natToDigits_all_digit (n : Nat) :
    (natToDigits n).all Char.isDigit = true := by
  induction n using Nat.strong_induction_on with
  | _ n ih =>
    rw [natToDigits]
    split
    · simpa using isDigit_digitToChar n (by omega)
    · rename_i h
      rw [List.all_append]
      refine Bool.and_eq_true_iff.mpr ⟨ih _ (Nat.div_lt_self (by omega) (by omega)), ?_⟩
      simpa using isDigit_digitToChar (n % 10) (Nat.mod_lt _ (by omega))

theorem digitsToNat_append_digit (xs : Str) (c : Char) :
    digitsToNat (xs ++ [c]) = digitsToNat xs * 10 + charToDigit c := by
  simp [digitsToNat, List.foldl_append]

theorem digitsToNat_natToDigits (n : Nat) :
    digitsToNat (natToDigits n) = n := by
  induction n using Nat.strong_induction_on with
  | _ n ih =>
    rw [natToDigits]
    split
    · rename_i h
      simp [digitsToNat, charToDigit_digitToChar n h]
    · rename_i h
      rw [digitsToNat_append_digit, ih _ (Nat.div_lt_self (by omega) (by omega)),
        charToDigit_digitToChar _ (Nat.mod_lt _ (by omega))]
      omega

theorem parseNat_natToDigits (n : Nat) : parseNat (natToDigits n) = some n := by
  have h1 := natToDigits_ne_nil n
  have h2 := natToDigits_all_digit n
  have h3 : (natToDigits n).isEmpty = false := by
    cases hn : natToDigits n with
    | nil => exact absurd hn h1
    | cons a l => simp
  simp [parseNat, h2, h3, digitsToNat_natToDigits]

theorem splitOnceChar_of_not_mem {c : Char} {s : Str} (h : c ∉ s) :
    splitOnceChar c s = none := by
  induction s with
  | nil => rfl
  | cons x xs ih =>
    have hx : x ≠ c := fun hh => h (hh ▸ List.mem_cons_self ..)
    simp only [splitOnceChar, if_neg hx, ih (fun hm => h (List.mem_cons_of_mem _ hm))]
    rfl

theorem splitOnceChar_append {c : Char} {xs ys : Str} (h : c ∉ xs) :
    splitOnceChar c (xs ++ c :: ys) = some (xs, ys) := by
  induction xs with
  | nil => simp [splitOnceChar]
  | cons x rest ih =>
    have hx : x ≠ c := fun hh => h (hh ▸ List.mem_cons_self ..)
    simp [splitOnceChar, if_neg hx, ih (fun hm => h (List.mem_cons_of_mem _ hm))]

theorem stripSeq_append (p rest : Str) : stripSeq p (p ++ rest) = some rest := by
  induction p with
  | nil => rfl
  | cons x ps ih => simp [stripSeq, ih]

theorem dropWhile_eq_self_of_all {p : Char → Bool} {xs : Str}
    (h : ∀ c ∈ xs, p c = false) : xs.dropWhile p = xs := by
  cases xs with
  | nil => rfl
  | cons x t => simp [List.dropWhile, h x (List.mem_cons_self ..)]

theorem takeWhile_dropWhile_append {p : Char → Bool} {xs ys : Str}
    (h1 : xs.all p = true) (h2 : ∀ c ∈ ys.take 1, p c = false) :
    (xs ++ ys).takeWhile p = xs ∧ (xs ++ ys).dropWhile p = ys := by
  induction xs with
  | nil =>
    simp only [List.nil_append]
    cases ys with
    | nil => exact ⟨rfl, rfl⟩
    | cons y t =>
      have hy : p y = false := h2 y (by simp)
      simp [List.takeWhile, List.dropWhile, hy]
  | cons x t ih =>
    have hx : p x = true := by
      simp only [List.all_cons, Bool.and_eq_true] at h1; exact h1.1
    have ht : t.all p = true := by
      simp only [List.all_cons, Bool.and_eq_true] at h1; exact h1.2
    obtain ⟨ih1, ih2⟩ := ih ht
    simp [List.takeWhile, List.dropWhile, hx, ih1, ih2]

theorem trimStart_eq_self {xs : Str} (h : ∀ c ∈ xs, isWsChar c = false) :
    trimStart xs = xs := dropWhile_eq_self_of_all h

theorem trimEnd_eq_self {xs : Str} (h : ∀ c ∈ xs, isWsChar c = false) :
    trimEnd xs = xs := by
  unfold trimEnd
  rw [dropWhile_eq_self_of_all (fun c hc => h c (List.mem_reverse.mp hc)),
    List.reverse_reverse]

theorem trimChars_eq_self {xs : Str} (h : ∀ c ∈ xs, isWsChar c = false) :
    trimChars xs = xs := by
  unfold trimChars
  rw [trimStart_eq_self h, trimEnd_eq_self h]

theorem trimChars_append_space {xs : Str} (h : ∀ c ∈ xs, isWsChar c = false) :
    trimChars (xs ++ [' ']) = xs := by
  cases xs with
  | nil => decide
  | cons x t =>
    have hx : isWsChar x = false := h x (List.mem_cons_self ..)
    have hrev : ∀ c ∈ (x :: t).reverse, isWsChar c = false :=
      fun c hc => h c (List.mem_reverse.mp hc)
    have h1 : trimStart ((x :: t) ++ [' ']) = (x :: t) ++ [' '] := by
      unfold trimStart
      rw [List.cons_append, List.dropWhile_cons, hx]
      simp
    have h2 : trimEnd ((x :: t) ++ [' ']) = x :: t := by
      unfold trimEnd
      have hr : ((x :: t) ++ [' ']).reverse = ' ' :: (x :: t).reverse := by simp
      rw [hr, List.dropWhile_cons, (by decide : isWsChar ' ' = true)]
      simp only [if_true]
      rw [dropWhile_eq_self_of_all hrev, List.reverse_reverse]
    unfold trimChars
    rw [h1, h2]

theorem trimChars_cons_space {xs : Str} (h : ∀ c ∈ xs, isWsChar c = false) :
    trimChars (' ' :: xs) = xs := by
  unfold trimChars trimStart
  rw [List.dropWhile_cons, (by decide : isWsChar ' ' = true)]
  simp only [if_true]
  rw [dropWhile_eq_self_of_all h]
  exact trimEnd_eq_self h

/-! ### Semver display and parse (external `semver` crate model) -/

/-- Characters legal in semver pre-release / build identifiers. -/
def semverIdentChar (c : Char) : Bool := c.isAlphanum || c = '-' || c = '.'

/-- A non-empty, well-charactered identifier section. -/
def identsOk (xs : Str) : Bool := !xs.isEmpty && xs.all semverIdentChar

/-- `Display for semver::Version`: `major.minor.patch[-pre][+build]`. -/
def semverDisplay (v : Semver) : Str :=
  natToDigits v.major ++ '.' :: natToDigits v.minor ++ '.' :: natToDigits v.patch
    ++ (if v.pre.isEmpty then [] else '-' :: v.pre)
    ++ (if v.build.isEmpty then [] else '+' :: v.build)

/-- Tail of `semver::Version::parse`: the optional `-pre` / `+build`
sections after the three numeric components. -/
def parseTail (maj mnr pat : Nat) : Str → Option Semver
  | [] => some ⟨maj, mnr, pat, [], []⟩
  | '-' :: rest =>
    match splitOnceChar '+' rest with
    | some (pre, bld) =>
      if identsOk pre && identsOk bld then some ⟨maj, mnr, pat, pre, bld⟩
      else none
    | none =>
      if identsOk rest then some ⟨maj, mnr, pat, rest, []⟩ else none
  | '+' :: rest =>
    if identsOk rest then some ⟨maj, mnr, pat, [], rest⟩ else none
  | _ => none

/-- `semver::Version::parse`: digits, dot, digits, dot, digits, then an
optional `-pre` and an optional `+build` section. -/
def parseSemver (s : Str) : Option Semver :=
  match parseNat (s.takeWhile Char.isDigit), s.dropWhile Char.isDigit with
  | some maj, '.' :: r1 =>
    match parseNat (r1.takeWhile Char.isDigit), r1.dropWhile Char.isDigit with
    | some mnr, '.' :: r2 =>
      match parseNat (r2.takeWhile Char.isDigit), r2.dropWhile Char.isDigit with
      | some pat, r3 => parseTail maj mnr pat r3
      | none, _ => none
    | _, _ => none
  | _, _ => none

/-- Well-formedness of one optional identifier section: absent or legal. -/
def sectionOk (xs : Str) : Bool := xs.isEmpty || identsOk xs

/-- Well-formedness of a semver value for round-tripping. -/
def semverOk (v : Semver) : Bool := sectionOk v.pre && sectionOk v.build

theorem semverIdentChar_ne_plus {c : Char} (h : semverIdentChar c = true) :
    c ≠ '+' := by
  rintro rfl; exact absurd h (by decide)

theorem not_plus_mem_of_idents {xs : Str} (h : xs.all semverIdentChar = true) :
    '+' ∉ xs := by
  intro hm
  exact semverIdentChar_ne_plus (List.all_eq_true.mp h _ hm) rfl

theorem parseSemver_display_aux (maj mnr pat : Nat) (tail : Str)
    (htail1 : ∀ c ∈ tail.take 1, Char.isDigit c = false) :
    parseSemver (natToDigits maj ++ '.' ::
        (natToDigits mnr ++ '.' :: (natToDigits pat ++ tail)))
      = parseTail maj mnr pat tail := by
  have step : ∀ (n : Nat) (rest : Str),
      (∀ c ∈ rest.take 1, Char.isDigit c = false) →
      parseNat ((natToDigits n ++ rest).takeWhile Char.isDigit) = some n ∧
        (natToDigits n ++ rest).dropWhile Char.isDigit = rest := by
    intro n rest hrest
    obtain ⟨h1, h2⟩ := takeWhile_dropWhile_append (natToDigits_all_digit n) hrest
    rw [h1, h2]
    exact ⟨parseNat_natToDigits n, rfl⟩
  have hdot : ∀ (r : Str), ∀ c ∈ ('.' :: r).take 1, Char.isDigit c = false := by
    intro r c hc
    simp only [List.take, List.take_zero, List.mem_singleton] at hc
    subst hc; decide
  have hmaj := step maj ('.' :: (natToDigits mnr ++ '.' :: (natToDigits pat ++ tail)))
    (hdot _)
  have hmnr := step mnr ('.' :: (natToDigits pat ++ tail)) (hdot _)
  have hpat := step pat tail htail1
  unfold parseSemver
  simp only [hmaj.1, hmaj.2, hmnr.1, hmnr.2, hpat.1, hpat.2]

theorem parseSemver_display {v : Semver} (hv : semverOk v = true) :
    parseSemver (semverDisplay v) = some v := by
  obtain ⟨maj, mnr, pat, pre, bld⟩ := v
  have hpre : pre = [] ∨ identsOk pre = true := by
    have h := (Bool.and_eq_true ..).mp hv |>.1
    simpa [sectionOk, Bool.or_eq_true, List.isEmpty_iff] using h
  have hbld : bld = [] ∨ identsOk bld = true := by
    have h := (Bool.and_eq_true ..).mp hv |>.2
    simpa [sectionOk, Bool.or_eq_true, List.isEmpty_iff] using h
  have hne : ∀ {xs : Str}, identsOk xs = true → xs.isEmpty = false := by
    intro xs h
    cases xs with
    | nil => exact absurd h (by decide)
    | cons a l => rfl
  rcases hpre with hp | hp <;> rcases hbld with hb | hb
  · subst hp; subst hb
    have e : semverDisplay ⟨maj, mnr, pat, [], []⟩ =
        natToDigits maj ++ '.' :: (natToDigits mnr ++ '.' :: (natToDigits pat ++ [])) := by
      simp [semverDisplay]
    rw [e, parseSemver_display_aux _ _ _ _ (by simp)]
    rfl
  · subst hp
    have e : semverDisplay ⟨maj, mnr, pat, [], bld⟩ =
        natToDigits maj ++ '.' ::
          (natToDigits mnr ++ '.' :: (natToDigits pat ++ ('+' :: bld))) := by
      simp [semverDisplay, hne hb]
    rw [e, parseSemver_display_aux _ _ _ _ ?hd]
    case hd =>
      intro c hc
      simp only [List.take_succ_cons, List.take_zero, List.mem_singleton] at hc
      subst hc; decide
    simp [parseTail, hb]
  · subst hb
    have e : semverDisplay ⟨maj, mnr, pat, pre, []⟩ =
        natToDigits maj ++ '.' ::
          (natToDigits mnr ++ '.' :: (natToDigits pat ++ ('-' :: pre))) := by
      simp [semverDisplay, hne hp]
    rw [e, parseSemver_display_aux _ _ _ _ ?hd2]
    case hd2 =>
      intro c hc
      simp only [List.take_succ_cons, List.take_zero, List.mem_singleton] at hc
      subst hc; decide
    have hsplit : splitOnceChar '+' pre = none :=
      splitOnceChar_of_not_mem
        (not_plus_mem_of_idents ((Bool.and_eq_true ..).mp hp).2)
    simp [parseTail, hsplit, hp]
  · have e : semverDisplay ⟨maj, mnr, pat, pre, bld⟩ =
        natToDigits maj ++ '.' ::
          (natToDigits mnr ++ '.' ::
            (natToDigits pat ++ ('-' :: (pre ++ '+' :: bld)))) := by
      simp [semverDisplay, hne hp, hne hb]
    rw [e, parseSemver_display_aux _ _ _ _ ?hd3]
    case hd3 =>
      intro c hc
      simp only [List.take_succ_cons, List.take_zero, List.mem_singleton] at hc
      subst hc; decide
    have hsplit : splitOnceChar '+' (pre ++ '+' :: bld) = some (pre, bld) :=
      splitOnceChar_append
        (not_plus_mem_of_idents ((Bool.and_eq_true ..).mp hp).2)
    simp [parseTail, hsplit, hp, hb]

/-! ### `VetVersion` display and parse (`format.rs` lines 67-99) -/

/-- The pattern `"git:"` stripped by `VetVersion::parse`. -/
def gitMarker : Str := ['g', 'i', 't', ':']

/-- `Display for VetVersion`: `semver` or `semver@git:hash`. -/
def VetVersion.display (v : VetVersion) : Str :=
  semverDisplay v.semver ++
    match v.gitRev with
    | some hash => '@' :: (gitMarker ++ hash)
    | none => []

/-- `VetVersion::parse`: split at the first `@`; the right side must start
(after leading whitespace) with `git:` and the remainder is the opaque
revision; without `@`, the whole string is the semver part. -/
def VetVersion.parse (s : Str) : Option VetVersion :=
  match splitOnceChar '@' s with
  | some (ver, rev) =>
    match stripSeq gitMarker (trimStart rev) with
    | some hash => (parseSemver (trimEnd ver)).map fun sv => ⟨sv, some hash⟩
    | none => none
  | none => (parseSemver s).map fun sv => ⟨sv, none⟩

/-- A well-formed git revision: non-empty and alphanumeric (git hashes). -/
def hashOk (h : Str) : Bool := !h.isEmpty && h.all Char.isAlphanum

/-- Well-formedness of a `VetVersion` for round-tripping. -/
def vetVersionOk (v : VetVersion) : Bool :=
  semverOk v.semver &&
    match v.gitRev with
    | some h => hashOk h
    | none => true

/-- Character class of a displayed semver: digits, separators, and
identifier characters. -/
def plainChar (c : Char) : Bool :=
  c.isDigit || c = '.' || c = '-' || c = '+' || semverIdentChar c

theorem natToDigits_all_plain (n : Nat) :
    ∀ c ∈ natToDigits n, plainChar c = true := by
  intro c hc
  have := List.all_eq_true.mp (natToDigits_all_digit n) c hc
  simp [plainChar, this]

theorem forall_mem_plain_append (p : Char → Bool) {xs ys : Str}
    (hx : ∀ c ∈ xs, p c = true) (hy : ∀ c ∈ ys, p c = true) :
    ∀ c ∈ xs ++ ys, p c = true :=
  List.forall_mem_append.mpr ⟨hx, hy⟩

theorem semverDisplay_all_plain {v : Semver} (hv : semverOk v = true) :
    ∀ c ∈ semverDisplay v, plainChar c = true := by
  obtain ⟨maj, mnr, pat, pre, bld⟩ := v
  have hpre : ∀ c ∈ pre, semverIdentChar c = true := by
    have h := (Bool.and_eq_true ..).mp hv |>.1
    rcases (by simpa [sectionOk, Bool.or_eq_true, List.isEmpty_iff] using h :
        pre = [] ∨ identsOk pre = true) with h' | h'
    · subst h'; intro c hc; cases hc
    · exact fun c hc => List.all_eq_true.mp ((Bool.and_eq_true ..).mp h').2 c hc
  have hbld : ∀ c ∈ bld, semverIdentChar c = true := by
    have h := (Bool.and_eq_true ..).mp hv |>.2
    rcases (by simpa [sectionOk, Bool.or_eq_true, List.isEmpty_iff] using h :
        bld = [] ∨ identsOk bld = true) with h' | h'
    · subst h'; intro c hc; cases hc
    · exact fun c hc => List.all_eq_true.mp ((Bool.and_eq_true ..).mp h').2 c hc
  have hifp : ∀ c ∈ (if pre.isEmpty then ([] : Str) else '-' :: pre),
      plainChar c = true := by
    split
    · intro c hc; cases hc
    · exact List.forall_mem_cons.mpr
        ⟨by decide, fun c hc => by simp [plainChar, hpre c hc]⟩
  have hifb : ∀ c ∈ (if bld.isEmpty then ([] : Str) else '+' :: bld),
      plainChar c = true := by
    split
    · intro c hc; cases hc
    · exact List.forall_mem_cons.mpr
        ⟨by decide, fun c hc => by simp [plainChar, hbld c hc]⟩
  have e : semverDisplay ⟨maj, mnr, pat, pre, bld⟩ =
      natToDigits maj ++ ('.' :: (natToDigits mnr ++ ('.' :: (natToDigits pat ++
        ((if pre.isEmpty then ([] : Str) else '-' :: pre)
          ++ (if bld.isEmpty then ([] : Str) else '+' :: bld)))))) := by
    simp [semverDisplay]
  rw [e]
  refine forall_mem_plain_append plainChar (natToDigits_all_plain _) ?_
  refine List.forall_mem_cons.mpr ⟨by decide, ?_⟩
  refine forall_mem_plain_append plainChar (natToDigits_all_plain _) ?_
  refine List.forall_mem_cons.mpr ⟨by decide, ?_⟩
  refine forall_mem_plain_append plainChar (natToDigits_all_plain _) ?_
  exact forall_mem_plain_append plainChar hifp hifb

/-- Character class of a displayed `VetVersion`: a displayed semver
character, an `@`, a `:`, or an alphanumeric revision character. -/
def vplainChar (c : Char) : Bool := plainChar c || c = '@' || c = ':'

theorem vetDisplay_all_vplain {v : VetVersion} (hv : vetVersionOk v = true) :
    ∀ c ∈ v.display, vplainChar c = true := by
  obtain ⟨sv, rev⟩ := v
  have hsv : semverOk sv = true := ((Bool.and_eq_true ..).mp hv).1
  unfold VetVersion.display
  refine forall_mem_plain_append vplainChar
    (fun c hc => by simp [vplainChar, semverDisplay_all_plain hsv c hc]) ?_
  cases rev with
  | none => intro c hc; cases hc
  | some hash =>
    have hhash : ∀ c ∈ hash, Char.isAlphanum c = true := by
      have h2 := ((Bool.and_eq_true ..).mp hv).2
      exact fun c hc =>
        List.all_eq_true.mp ((Bool.and_eq_true ..).mp h2).2 c hc
    refine List.forall_mem_cons.mpr ⟨by decide, ?_⟩
    refine forall_mem_plain_append vplainChar (by decide) ?_
    intro c hc
    simp [vplainChar, plainChar, semverIdentChar, hhash c hc]

theorem vplain_not_ws {c : Char} (h : vplainChar c = true) :
    isWsChar c = false := by
  by_contra hw
  have hw' : isWsChar c = true := by
    cases hb : isWsChar c
    · exact absurd hb hw
    · rfl
  have hcase : c = ' ' ∨ c = '\t' ∨ c = '\n' ∨ c = '\r' := by
    simpa [isWsChar, Bool.or_eq_true, decide_eq_true_eq, or_assoc] using hw'
  rcases hcase with rfl | rfl | rfl | rfl <;> exact absurd h (by decide)

theorem vplain_ne_gt {c : Char} (h : vplainChar c = true) : c ≠ '>' := by
  rintro rfl; exact absurd h (by decide)

theorem plain_ne_at {c : Char} (h : plainChar c = true) : c ≠ '@' := by
  rintro rfl; exact absurd h (by decide)

/-- Round-trip of `VetVersion` parse and display on well-formed versions. -/
theorem vetVersionParse_display {v : VetVersion} (hv : vetVersionOk v = true) :
    VetVersion.parse v.display = some v := by
  obtain ⟨sv, rev⟩ := v
  have hsv : semverOk sv = true := ((Bool.and_eq_true ..).mp hv).1
  have hat : '@' ∉ semverDisplay sv := fun hm =>
    plain_ne_at (semverDisplay_all_plain hsv _ hm) rfl
  cases rev with
  | none =>
    unfold VetVersion.display
    simp only [List.append_nil]
    unfold VetVersion.parse
    rw [splitOnceChar_of_not_mem hat, parseSemver_display hsv]
    rfl
  | some hash =>
    have hhash : ∀ c ∈ hash, Char.isAlphanum c = true := by
      have h2 := ((Bool.and_eq_true ..).mp hv).2
      exact fun c hc => List.all_eq_true.mp ((Bool.and_eq_true ..).mp h2).2 c hc
    have hnws : ∀ c ∈ gitMarker ++ hash, isWsChar c = false := by
      refine List.forall_mem_append.mpr ⟨by decide, ?_⟩
      intro c hc
      apply vplain_not_ws
      simp [vplainChar, plainChar, semverIdentChar, hhash c hc]
    have h1 : splitOnceChar '@'
        (VetVersion.display ⟨sv, some hash⟩) = some (semverDisplay sv, gitMarker ++ hash) := by
      unfold VetVersion.display
      exact splitOnceChar_append hat
    unfold VetVersion.parse
    simp only [h1]
    rw [trimStart_eq_self hnws, stripSeq_append,
      trimEnd_eq_self (fun c hc =>
        vplain_not_ws (by simp [vplainChar, semverDisplay_all_plain hsv c hc])),
      parseSemver_display hsv]
    rfl

/-! ### `Delta` (`format.rs` lines 288-340) -/

/-- `format.rs`: a `"VERSION"` or `"VERSION -> VERSION"`; `from` is absent
for the full-audit form. -/
structure Delta where
  fromV : Option VetVersion
  toV : VetVersion
deriving DecidableEq

/-- The separator pattern `"->"` of the delta string form. -/
def arrowPat : Str := ['-', '>']

/-- `Serialize for Delta` (`format.rs` line 330): `"from -> to"` when `from`
is present, otherwise just the target version. -/
def Delta.serialize (d : Delta) : Str :=
  match d.fromV with
  | some f => f.display ++ ' ' :: '-' :: '>' :: ' ' :: d.toV.display
  | none => d.toV.display

/-- `Deserialize for Delta` (`format.rs` line 294): split at the first
`"->"`; both sides (or, without `"->"`, the whole string) are trimmed and
parsed as versions. -/
def Delta.deserialize (s : Str) : Option Delta :=
  match splitOnceStr arrowPat s with
  | some (f, t) =>
    match VetVersion.parse (trimChars f), VetVersion.parse (trimChars t) with
    | some fv, some tv => some ⟨some fv, tv⟩
    | _, _ => none
  | none => (VetVersion.parse (trimChars s)).map fun tv => ⟨none, tv⟩

/-- A well-formed delta: every version in it is well-formed. -/
def deltaOk (d : Delta) : Bool :=
  vetVersionOk d.toV &&
    match d.fromV with
    | some f => vetVersionOk f
    | none => true

theorem splitOnceStr_arrow_of_not_mem {s : Str} (h : '>' ∉ s) :
    splitOnceStr arrowPat s = none := by
  induction s with
  | nil => rfl
  | cons x xs ih =>
    have hstrip : stripSeq arrowPat (x :: xs) = none := by
      unfold arrowPat stripSeq
      by_cases hx : x = '-'
      · subst hx
        simp only [if_true]
        cases xs with
        | nil => rfl
        | cons y ys =>
          have hy : y ≠ '>' := fun hh =>
            h (hh ▸ List.mem_cons_of_mem _ (List.mem_cons_self ..))
          simp [stripSeq, hy]
      · simp [hx]
    unfold splitOnceStr
    rw [hstrip, ih (fun hm => h (List.mem_cons_of_mem _ hm))]
    rfl

theorem splitOnceStr_arrow_append {a ys : Str} (h : '>' ∉ a) :
    splitOnceStr arrowPat (a ++ '-' :: '>' :: ys) = some (a, ys) := by
  induction a with
  | nil => simp [splitOnceStr, arrowPat, stripSeq]
  | cons x rest ih =>
    have hstrip : stripSeq arrowPat (x :: (rest ++ '-' :: '>' :: ys)) = none := by
      unfold arrowPat stripSeq
      by_cases hx : x = '-'
      · subst hx
        simp only [if_true]
        cases rest with
        | nil =>
          simp [stripSeq]
        | cons r rs =>
          have hr : r ≠ '>' := fun hh =>
            h (hh ▸ List.mem_cons_of_mem _ (List.mem_cons_self ..))
          simp [stripSeq, hr]
      · simp [hx]
    rw [List.cons_append]
    unfold splitOnceStr
    rw [hstrip, ih (fun hm => h (List.mem_cons_of_mem _ hm))]
    rfl

/-- C2: round-trip of the delta string format. For every well-formed delta
(both the `"V1 -> V2"` form and the full-audit `"V"` form, with or without
`@git:` suffixes), deserializing the serialized string yields the delta
back: `parse(format(d)) == d`. -/
theorem delta_roundtrip {d : Delta} (hd : deltaOk d = true) :
    Delta.deserialize d.serialize = some d := by
  obtain ⟨fv, tv⟩ := d
  have htv : vetVersionOk tv = true := ((Bool.and_eq_true ..).mp hd).1
  have htnws : ∀ c ∈ tv.display, isWsChar c = false :=
    fun c hc => vplain_not_ws (vetDisplay_all_vplain htv c hc)
  have htgt : '>' ∉ tv.display := fun hm =>
    vplain_ne_gt (vetDisplay_all_vplain htv _ hm) rfl
  cases fv with
  | none =>
    unfold Delta.serialize Delta.deserialize
    simp only []
    rw [splitOnceStr_arrow_of_not_mem htgt, trimChars_eq_self htnws,
      vetVersionParse_display htv]
    rfl
  | some f =>
    have hfv : vetVersionOk f = true := ((Bool.and_eq_true ..).mp hd).2
    have hfnws : ∀ c ∈ f.display, isWsChar c = false :=
      fun c hc => vplain_not_ws (vetDisplay_all_vplain hfv c hc)
    have hfgt : '>' ∉ f.display ++ [' '] := by
      intro hm
      rcases List.mem_append.mp hm with h | h
      · exact vplain_ne_gt (vetDisplay_all_vplain hfv _ h) rfl
      · simp at h
    have harr : f.display ++ ' ' :: '-' :: '>' :: ' ' :: tv.display
        = (f.display ++ [' ']) ++ '-' :: '>' :: (' ' :: tv.display) := by
      simp
    unfold Delta.serialize Delta.deserialize
    simp only []
    rw [harr]
    simp only [splitOnceStr_arrow_append hfgt]
    rw [trimChars_append_space hfnws, trimChars_cons_space htnws,
      vetVersionParse_display hfv, vetVersionParse_display htv]

/-- C2 witness: a concrete delta, with a git suffix on the target, whose
serialization parses back to itself. -/
theorem delta_roundtrip_witness :
    deltaOk ⟨some ⟨⟨1, 0, 0, [], []⟩, none⟩,
        ⟨⟨1, 2, 3, ['a'], []⟩, some ['a', 'b', 'c']⟩⟩ = true ∧
      Delta.deserialize
          (Delta.serialize ⟨some ⟨⟨1, 0, 0, [], []⟩, none⟩,
            ⟨⟨1, 2, 3, ['a'], []⟩, some ['a', 'b', 'c']⟩⟩)
        = some ⟨some ⟨⟨1, 0, 0, [], []⟩, none⟩,
            ⟨⟨1, 2, 3, ['a'], []⟩, some ['a', 'b', 'c']⟩⟩ :=
  ⟨by decide, delta_roundtrip (by decide)⟩

/-! ### Audits data model (`format.rs`)

`Spanned<T>` (from the serialization module, not under `src/`) wraps a
value with its source span; its comparisons delegate to the value. A
`VersionReq` is modelled by its display string, which is exactly how its
`PartialOrd` in `format.rs` (line 48) compares it. -/

/-- A value together with its span in the source file. -/
structure Spanned (α : Type) where
  val : α
  span : Nat × Nat
deriving DecidableEq

/-- Comparison of spanned strings: delegates to the value, spans ignored. -/
def spannedStrCmp : Spanned Str → Spanned Str → Ordering :=
  onCmp strCmp Spanned.val

/-- `format.rs` `AuditKind` (line 280): Full / Delta / Violation. The
violation predicate (`VersionReq`) is kept as its display string. -/
inductive AuditKind where
  | full (version : VetVersion)
  | delta (fromV toV : VetVersion)
  | violation (violation : Str)
deriving DecidableEq

/-- The derived `PartialOrd` on `AuditKind`: variants in declaration order,
fields left to right; `VersionReq` compares by its formatted string. -/
def auditKindCmp : AuditKind → AuditKind → Ordering
  | .full v1, .full v2 => vetVersionCmp v1 v2
  | .full _, .delta .. => .lt
  | .full _, .violation _ => .lt
  | .delta .., .full _ => .gt
  | .delta f1 t1, .delta f2 t2 => (vetVersionCmp f1 f2).then (vetVersionCmp t1 t2)
  | .delta .., .violation _ => .lt
  | .violation _, .full _ => .gt
  | .violation _, .delta .. => .gt
  | .violation r1, .violation r2 => strCmp r1 r2

theorem auditKindCmp_transCmp : Batteries.TransCmp auditKindCmp := by
  have hD : Batteries.TransCmp (thenCmp (onCmp vetVersionCmp Prod.fst)
      (onCmp vetVersionCmp (Prod.snd : VetVersion × VetVersion → VetVersion))) :=
    thenCmp_transCmp (onCmp_transCmp _ vetVersionCmp_transCmp)
      (onCmp_transCmp _ vetVersionCmp_transCmp)
  refine { symm := ?_, le_trans := ?_ }
  · intro a b
    cases a <;> cases b <;> try rfl
    · exact vetVersionCmp_transCmp.symm _ _
    · rename_i f1 t1 f2 t2
      exact hD.symm (f1, t1) (f2, t2)
    · exact strCmp_transCmp.symm _ _
  · intro a b c hab hbc
    cases a <;> cases b <;> cases c <;> simp_all [auditKindCmp]
    · exact vetVersionCmp_transCmp.le_trans hab hbc
    · rename_i f1 t1 f2 t2 f3 t3
      exact @Batteries.TransCmp.le_trans _ _ hD (f1, t1) (f2, t2) (f3, t3) hab hbc
    · exact strCmp_transCmp.le_trans hab hbc

/-- `format.rs` `AuditEntry` (line 248). -/
structure AuditEntry where
  who : List (Spanned Str)
  criteria : List (Spanned Str)
  kind : AuditKind
  notes : Option Str
  aggregatedFrom : List (Spanned Str)
  isFreshImport : Bool
deriving DecidableEq

/-- The manual `PartialOrd for AuditEntry` (`format.rs` line 267): compare
the tuple `(kind, criteria, who, notes)` (which, on these field types, is
total, so `Ord::cmp` never panics). -/
def auditEntryCmp (a b : AuditEntry) : Ordering :=
  (auditKindCmp a.kind b.kind).then <|
    (listCmp spannedStrCmp a.criteria b.criteria).then <|
      (listCmp spannedStrCmp a.who b.who).then
        (optionCmp strCmp a.notes b.notes)

theorem auditEntryCmp_transCmp : Batteries.TransCmp auditEntryCmp := by
  have h : Batteries.TransCmp (thenCmp (onCmp auditKindCmp AuditEntry.kind) <|
      thenCmp (onCmp (listCmp spannedStrCmp) AuditEntry.criteria) <|
        thenCmp (onCmp (listCmp spannedStrCmp) AuditEntry.who)
          (onCmp (optionCmp strCmp) AuditEntry.notes)) :=
    thenCmp_transCmp (onCmp_transCmp _ auditKindCmp_transCmp) <|
      thenCmp_transCmp
        (onCmp_transCmp _ (listCmp_transCmp _ (onCmp_transCmp _ strCmp_transCmp))) <|
        thenCmp_transCmp
          (onCmp_transCmp _ (listCmp_transCmp _ (onCmp_transCmp _ strCmp_transCmp)))
          (onCmp_transCmp _ (optionCmp_transCmp _ strCmp_transCmp))
  exact h

/-- The sort order used on commit: `a <= b` in the `AuditEntry` order. -/
def auditLe (a b : AuditEntry) : Prop := auditEntryCmp a b ≠ .gt

instance : DecidableRel auditLe := fun _ _ => inferInstanceAs (Decidable (_ ≠ _))

instance : IsTrans AuditEntry auditLe :=
  ⟨fun _ _ _ hab hbc => auditEntryCmp_transCmp.le_trans hab hbc⟩

instance : IsTotal AuditEntry auditLe := by
  constructor
  intro a b
  unfold auditLe
  cases hab : auditEntryCmp a b
  · exact .inl (by simp [hab])
  · exact .inl (by simp [hab])
  · refine .inr ?_
    have := auditEntryCmp_transCmp.symm a b
    rw [hab] at this
    simp [← this, Ordering.swap]

/-- `format.rs` `CriteriaEntry` (line 224). -/
structure CriteriaEntry where
  description : Option Str
  descriptionUrl : Option Str
  implies : List (Spanned Str)
  aggregatedFrom : List (Spanned Str)
deriving DecidableEq

/-- `format.rs` `AuditsFile` (line 204): the criteria table and the audits,
both `BTreeMap`s modelled as association lists in key order. -/
structure AuditsFile where
  criteria : List (Str × CriteriaEntry)
  audits : List (Str × List AuditEntry)
deriving DecidableEq

/-- `storage.rs` `store_audits` (line 1302): before serializing, each
package's audit entry list is sorted (stably) by the `AuditEntry` order.
The TOML encoding itself is out of scope; this is the value handed to
`store_toml`. -/
def storeAuditsValue (audits : AuditsFile) : AuditsFile :=
  { audits with
    audits := audits.audits.map fun pe => (pe.1, List.insertionSort auditLe pe.2) }

/-- C7: the comparison order on `AuditEntry` is the lexicographic order on
the tuple `(kind, criteria, who, notes)` — spelled out: `a` sorts no later
than `b` iff its kind is smaller, or kinds tie and criteria are smaller, or
those tie and `who` is smaller, or those tie and `notes` is no greater —
and on commit (`store_audits`) each package's entry list is sorted by
exactly this order, the sorted list being a permutation of the original
(entries and their fields are preserved). -/
theorem auditEntry_order_and_sort :
    (∀ a b : AuditEntry, auditLe a b ↔
      (auditKindCmp a.kind b.kind = .lt ∨
        (auditKindCmp a.kind b.kind = .eq ∧
          (listCmp spannedStrCmp a.criteria b.criteria = .lt ∨
            (listCmp spannedStrCmp a.criteria b.criteria = .eq ∧
              (listCmp spannedStrCmp a.who b.who = .lt ∨
                (listCmp spannedStrCmp a.who b.who = .eq ∧
                  optionCmp strCmp a.notes b.notes ≠ .gt))))))) ∧
      (∀ (audits : AuditsFile) (pkg : Str) (entries : List AuditEntry),
        (pkg, entries) ∈ (storeAuditsValue audits).audits →
          entries.Sorted auditLe ∧
            ∃ orig, (pkg, orig) ∈ audits.audits ∧ entries.Perm orig) := by
  constructor
  · intro a b
    unfold auditLe auditEntryCmp
    cases hk : auditKindCmp a.kind b.kind <;>
      cases hc : listCmp spannedStrCmp a.criteria b.criteria <;>
        cases hw : listCmp spannedStrCmp a.who b.who <;>
          simp [Ordering.then]
  · intro audits pkg entries hmem
    unfold storeAuditsValue at hmem
    simp only [List.mem_map] at hmem
    obtain ⟨⟨pkg', orig⟩, hor, heq⟩ := hmem
    obtain ⟨rfl, rfl⟩ := Prod.mk.injEq .. ▸ heq
    exact ⟨List.sorted_insertionSort auditLe orig,
      orig, hor, List.perm_insertionSort auditLe orig⟩

/-- Sample audit entries and file for concrete evaluation. -/
def sampleAuditA : AuditEntry :=
  ⟨[], [], .full ⟨⟨1, 0, 0, [], []⟩, none⟩, none, [], false⟩

def sampleAuditB : AuditEntry :=
  ⟨[], [], .full ⟨⟨2, 0, 0, [], []⟩, none⟩, none, [], false⟩

def sampleAuditsFile : AuditsFile := ⟨[], [(['p'], [sampleAuditB, sampleAuditA])]⟩

/-- C7 witness: on a concrete two-entry audits file stored out of order,
the stored list is sorted and a permutation of the original. -/
theorem auditEntry_order_and_sort_witness :
    List.Sorted auditLe [sampleAuditA, sampleAuditB] ∧
      ∃ orig, (['p'], orig) ∈ sampleAuditsFile.audits ∧
        List.Perm [sampleAuditA, sampleAuditB] orig :=
  auditEntry_order_and_sort.2 sampleAuditsFile ['p'] [sampleAuditA, sampleAuditB]
    (by decide)

/-! ### Config, imports and the Store (`format.rs`, `storage.rs`) -/

/-- `format.rs` `CriteriaMapping` (line 491). -/
structure CriteriaMapping where
  ours : Str
  theirs : List (Spanned Str)
deriving DecidableEq

/-- `format.rs` `RemoteImport` (line 475). -/
structure RemoteImport where
  url : Str
  exclude : List Str
  criteriaMap : List CriteriaMapping
deriving DecidableEq

/-- `format.rs` `PolicyEntry` (line 407). -/
structure PolicyEntry where
  auditAsCratesIo : Option Bool
  criteria : Option (List (Spanned Str))
  devCriteria : Option (List (Spanned Str))
  dependencyCriteria : List (Str × List (Spanned Str))
  notes : Option Str
deriving DecidableEq

/-- `format.rs` `ExemptedDependency` (line 502). -/
structure ExemptedDependency where
  version : VetVersion
  criteria : List (Spanned Str)
  suggest : Bool
  notes : Option Str
deriving DecidableEq

/-- `format.rs` `ConfigFile` (line 354). -/
structure ConfigFile where
  defaultCriteria : Str
  imports : List (Str × RemoteImport)
  policy : List (Str × PolicyEntry)
  exemptions : List (Str × List ExemptedDependency)
deriving DecidableEq

/-- `format.rs` `ImportsFile` (line 539). -/
structure ImportsFile where
  audits : List (Str × AuditsFile)
deriving DecidableEq

/-- `storage.rs` `Store` (line 116): the optional exclusive store lock,
the three loaded files, and their source texts (for error spans). -/
structure Store where
  lock : Bool
  config : ConfigFile
  imports : ImportsFile
  audits : AuditsFile
  configSrc : Str
  importsSrc : Str
  auditsSrc : Str
deriving DecidableEq

/-- `storage.rs` `Store::clone_for_suggest` (line 243): clone without the
lock, retaining only `suggest = false` exemptions. -/
def Store.cloneForSuggest (s : Store) : Store :=
  { s with
    lock := false
    config := { s.config with
      exemptions := s.config.exemptions.map fun pe =>
        (pe.1, pe.2.filter fun e => !e.suggest) } }

/-- C6: `clone_for_suggest` keeps, for each package and in order, exactly
the exemption entries with `suggest = false` (verbatim); the rest of the
config, the audits file, the imports file and the source texts are equal
to the original's, and the clone holds no store lock. -/
theorem cloneForSuggest_frame (s : Store) :
    (s.cloneForSuggest).lock = false ∧
      (s.cloneForSuggest).audits = s.audits ∧
      (s.cloneForSuggest).imports = s.imports ∧
      (s.cloneForSuggest).config.defaultCriteria = s.config.defaultCriteria ∧
      (s.cloneForSuggest).config.imports = s.config.imports ∧
      (s.cloneForSuggest).config.policy = s.config.policy ∧
      (s.cloneForSuggest).configSrc = s.configSrc ∧
      (s.cloneForSuggest).importsSrc = s.importsSrc ∧
      (s.cloneForSuggest).auditsSrc = s.auditsSrc ∧
      (s.cloneForSuggest).config.exemptions
        = s.config.exemptions.map fun pe =>
            (pe.1, pe.2.filter fun e => e.suggest = false) := by
  refine ⟨rfl, rfl, rfl, rfl, rfl, rfl, rfl, rfl, rfl, ?_⟩
  unfold Store.cloneForSuggest
  simp only []
  apply List.map_congr_left
  intro pe _
  congr 1
  apply List.filter_congr
  intro e _
  cases h : e.suggest <;> simp

/-- Comparison on `Bool` as derived in Rust: `false < true`. -/
def boolCmp : Bool → Bool → Ordering
  | false, false => .eq
  | false, true => .lt
  | true, false => .gt
  | true, true => .eq

/-- The derived `Ord` on `ExemptedDependency`: fields in declaration
order. -/
def exemptionCmp (a b : ExemptedDependency) : Ordering :=
  (vetVersionCmp a.version b.version).then <|
    (listCmp spannedStrCmp a.criteria b.criteria).then <|
      (boolCmp a.suggest b.suggest).then (optionCmp strCmp a.notes b.notes)

/-- The sort order `store_config` uses for exemption lists. -/
def exemptionLe (a b : ExemptedDependency) : Prop := exemptionCmp a b ≠ .gt

instance : DecidableRel exemptionLe := fun _ _ => inferInstanceAs (Decidable (_ ≠ _))

/-- `storage.rs` `store_config` (line 1314): exemption lists are sorted
before serialization; this is the value handed to `store_toml`. -/
def storeConfigValue (config : ConfigFile) : ConfigFile :=
  { config with
    exemptions := config.exemptions.map fun pe =>
      (pe.1, List.insertionSort exemptionLe pe.2) }

/-- The three store files on disk (`config.toml`, `audits.toml`,
`imports.lock`); `none` models an absent file. -/
structure StoreDisk where
  configFile : Option ConfigFile
  auditsFile : Option AuditsFile
  importsFile : Option ImportsFile
deriving DecidableEq

/-- `storage.rs` `Store::commit` (line 261): with the store lock held, the
three files are written back (`store_audits` / `store_config` /
`store_imports`); without it, nothing is written and the call still
returns `Ok`. -/
def Store.commit (s : Store) (disk : StoreDisk) : Except Unit StoreDisk :=
  if s.lock then
    .ok ⟨some (storeConfigValue s.config), some (storeAuditsValue s.audits),
      some s.imports⟩
  else .ok disk

/-- C10: committing a store without the store lock (as produced by
`clone_for_suggest` or the mock constructors) returns `Ok` and writes none
of the three store files: the disk is unchanged. -/
theorem commit_without_lock (s : Store) (disk : StoreDisk)
    (h : s.lock = false) :
    s.commit disk = .ok disk ∧
      (s.cloneForSuggest).commit disk = .ok disk := by
  have hclone : (s.cloneForSuggest).lock = false := rfl
  unfold Store.commit
  rw [h, hclone]
  exact ⟨rfl, rfl⟩

/-- C10 witness: a concrete unlocked store commits as a no-op. -/
theorem commit_without_lock_witness :
    Store.commit
        ⟨false, ⟨[], [], [], []⟩, ⟨[]⟩, ⟨[], []⟩, [], [], []⟩
        ⟨none, none, none⟩
      = .ok ⟨none, none, none⟩ :=
  (commit_without_lock ⟨false, ⟨[], [], [], []⟩, ⟨[]⟩, ⟨[], []⟩, [], [], []⟩
    ⟨none, none, none⟩ rfl).1

/-! ### The diff cache (`storage.rs` `Cache::acquire`, `format.rs`
`DiffCache`) -/

/-- `format.rs` `DiffStat` (line 577). -/
structure DiffStat where
  insertions : Nat
  deletions : Nat
  filesChanged : Nat
deriving DecidableEq

/-- `format.rs` `DiffCache` (line 561): a `version`-tagged enum whose only
current variant is tag `"2"`. -/
inductive DiffCache where
  | v2 (diffs : List (Str × List (Delta × DiffStat)))
deriving DecidableEq

/-- `Default for DiffCache` (`format.rs` line 568): `V2` with no diffs. -/
def DiffCache.defaultValue : DiffCache := .v2 []

/-- What the on-disk diff-cache file can look like to the loader: absent,
undecodable, or a `version`-tagged table. -/
inductive DiffCacheFile where
  | absent
  | malformed
  | tagged (tag : Str) (diffs : List (Str × List (Delta × DiffStat)))
deriving DecidableEq

/-- Serde's externally tagged decoding of `DiffCache`: only tag `"2"`
decodes; any other tag, a missing tag, or unreadable contents fail. -/
def decodeDiffCache : DiffCacheFile → Option DiffCache
  | .tagged t diffs => if t = ['2'] then some (.v2 diffs) else none
  | _ => none

/-- The mutable cache state relevant here. -/
structure CacheModel where
  diffCache : DiffCache
deriving DecidableEq

/-- `storage.rs` `Cache::acquire` (line 657), diff-cache leg:
`File::open(..).ok().and_then(|f| load_toml(..).ok()).unwrap_or_default()` —
any failure to open or decode falls back to the default value, and the
acquire itself succeeds. -/
def Cache.acquire (file : DiffCacheFile) : Except Unit CacheModel :=
  .ok ⟨(decodeDiffCache file).getD DiffCache.defaultValue⟩

/-- C8: for every diff-cache file that is absent or fails to decode as the
current tagged format — including any version tag other than `"2"` —
`Cache::acquire` succeeds and proceeds with the default empty diff cache
(tag `"2"`, empty diffs). -/
theorem diffCache_silent_rebuild :
    (∀ file, decodeDiffCache file = none →
      Cache.acquire file = .ok ⟨DiffCache.defaultValue⟩) ∧
      (∀ t diffs, t ≠ ['2'] → decodeDiffCache (.tagged t diffs) = none) ∧
      decodeDiffCache .absent = none ∧
      decodeDiffCache .malformed = none ∧
      DiffCache.defaultValue = .v2 [] := by
  refine ⟨?_, ?_, rfl, rfl, rfl⟩
  · intro file h
    unfold Cache.acquire
    rw [h]
    rfl
  · intro t diffs h
    simp [decodeDiffCache, h]

/-- C8 witness: a version-1 tagged file is rejected by the decoder and
acquire proceeds with the default cache. -/
theorem diffCache_silent_rebuild_witness :
    Cache.acquire (.tagged ['1'] []) = .ok ⟨DiffCache.defaultValue⟩ :=
  diffCache_silent_rebuild.1 (.tagged ['1'] [])
    (diffCache_silent_rebuild.2.1 ['1'] [] (by decide))

/-! ### Store validation (`storage.rs` `Store::validate`, line 277)

The audit-kind and exemption dependency-criteria loops of `validate` walk
maps that the `format.rs` data model no longer carries (`AuditKind` has no
`dependency_criteria` field there), so under this data model they check
nothing and are omitted. -/

/-- The built-in criteria (`format.rs` lines 381-382). -/
def safeToDeploy : Str := "safe-to-deploy".data

/-- The built-in `safe-to-run` criteria name. -/
def safeToRun : Str := "safe-to-run".data

/-- Which store source file an error points into. -/
inductive SrcFileTag where
  | configSrc
  | auditsSrc
deriving DecidableEq

/-- `InvalidCriteriaError`: the offending reference with its source span
and the list of valid names. -/
structure InvalidCriteriaError where
  sourceCode : SrcFileTag
  span : Nat × Nat
  invalid : Str
  validNames : List Str
deriving DecidableEq

/-- `storage.rs` line 315: the declared criteria names chained with the
two built-ins. -/
def validCriteriaNames (audits : AuditsFile) : List Str :=
  audits.criteria.map Prod.fst ++ [safeToRun, safeToDeploy]

/-- `storage.rs` `check_criteria` (line 296): one error, with the span of
the reference, per name not in the valid list. -/
def checkCriteria (sourceCode : SrcFileTag) (valid : List Str)
    (criteria : List (Spanned Str)) : List InvalidCriteriaError :=
  criteria.filterMap fun c =>
    if c.val ∈ valid then none else some ⟨sourceCode, c.span, c.val, valid⟩

/-- The errors collected by `Store::validate`, in traversal order:
exemption criteria, then policy criteria / dev-criteria / per-dependency
criteria, then the `implies` lists of declared criteria, then audit entry
criteria. -/
def validateErrors (s : Store) : List InvalidCriteriaError :=
  let valid := validCriteriaNames s.audits
  (s.config.exemptions.flatMap fun pe =>
      pe.2.flatMap fun entry => checkCriteria .configSrc valid entry.criteria)
    ++ (s.config.policy.flatMap fun pp =>
      checkCriteria .configSrc valid (pp.2.criteria.getD [])
        ++ checkCriteria .configSrc valid (pp.2.devCriteria.getD [])
        ++ pp.2.dependencyCriteria.flatMap fun dc =>
            checkCriteria .configSrc valid dc.2)
    ++ (s.audits.criteria.flatMap fun ce =>
      checkCriteria .auditsSrc valid ce.2.implies)
    ++ (s.audits.audits.flatMap fun pa =>
      pa.2.flatMap fun entry => checkCriteria .auditsSrc valid entry.criteria)

/-- `storage.rs` `Store::validate` (line 277): `Ok` when no invalid
criteria reference was found, otherwise all collected errors. -/
def Store.validate (s : Store) : Except (List InvalidCriteriaError) Unit :=
  if (validateErrors s).isEmpty then .ok () else .error (validateErrors s)

/-- Every criteria reference in the store, with its source file, in the
order `validate` visits them. -/
def referencedCriteria (s : Store) : List (SrcFileTag × Spanned Str) :=
  (s.config.exemptions.flatMap fun pe =>
      pe.2.flatMap fun entry =>
        entry.criteria.map fun c => (SrcFileTag.configSrc, c))
    ++ (s.config.policy.flatMap fun pp =>
      ((pp.2.criteria.getD []).map fun c => (SrcFileTag.configSrc, c))
        ++ ((pp.2.devCriteria.getD []).map fun c => (SrcFileTag.configSrc, c))
        ++ pp.2.dependencyCriteria.flatMap fun dc =>
            dc.2.map fun c => (SrcFileTag.configSrc, c))
    ++ (s.audits.criteria.flatMap fun ce =>
      ce.2.implies.map fun c => (SrcFileTag.auditsSrc, c))
    ++ (s.audits.audits.flatMap fun pa =>
      pa.2.flatMap fun entry =>
        entry.criteria.map fun c => (SrcFileTag.auditsSrc, c))

/-- The error a single reference produces, if any. -/
def invalidOf (valid : List Str) (r : SrcFileTag × Spanned Str) :
    Option InvalidCriteriaError :=
  if r.2.val ∈ valid then none else some ⟨r.1, r.2.span, r.2.val, valid⟩

theorem filterMap_flatMap_comm (l : List α) (f : α → List β) (g : β → Option γ) :
    (l.flatMap f).filterMap g = l.flatMap fun x => (f x).filterMap g := by
  induction l with
  | nil => rfl
  | cons x xs ih => simp [List.flatMap_cons, List.filterMap_append, ih]

theorem checkCriteria_eq_filterMap (tag : SrcFileTag) (valid : List Str)
    (l : List (Spanned Str)) :
    checkCriteria tag valid l = (l.map fun c => (tag, c)).filterMap (invalidOf valid) := by
  rw [List.filterMap_map]
  rfl

theorem validateErrors_eq (s : Store) :
    validateErrors s
      = (referencedCriteria s).filterMap (invalidOf (validCriteriaNames s.audits)) := by
  unfold validateErrors referencedCriteria
  simp only [List.filterMap_append, filterMap_flatMap_comm, List.filterMap_map,
    checkCriteria_eq_filterMap]

/-- C4: `Store::validate` returns `Ok` iff every criteria name referenced
anywhere in the store — exemption entries, policy criteria, dev-criteria
and per-dependency criteria, the `implies` lists of declared criteria, and
audit entries — is declared in `audits.criteria` or is one of the
built-ins `safe-to-run` / `safe-to-deploy`; otherwise it returns exactly
one `InvalidCriteria` error, carrying the reference's source span, per
offending reference. -/
theorem validate_invalid_criteria (s : Store) :
    (s.validate = .ok () ↔
      ∀ r ∈ referencedCriteria s, r.2.val ∈ validCriteriaNames s.audits) ∧
      (∀ es, s.validate = .error es →
        es = (referencedCriteria s).filterMap
          (invalidOf (validCriteriaNames s.audits))) := by
  constructor
  · unfold Store.validate
    split
    · rename_i hemp
      rw [List.isEmpty_iff, validateErrors_eq] at hemp
      simp only [List.filterMap_eq_nil_iff] at hemp
      constructor
      · intro _ r hr
        have := hemp r hr
        by_contra hmem
        simp [invalidOf, hmem] at this
      · intro _; rfl
    · rename_i hemp
      constructor
      · intro h; cases h
      · intro hall
        exfalso
        apply hemp
        rw [List.isEmpty_iff, validateErrors_eq]
        simp only [List.filterMap_eq_nil_iff]
        intro r hr
        simp [invalidOf, hall r hr]
  · intro es hes
    unfold Store.validate at hes
    split at hes
    · cases hes
    · cases hes
      exact validateErrors_eq s

/-- A sample store whose only custom criteria implies a built-in and whose
exemption references that criteria: validation passes. -/
def sampleValidStore : Store :=
  { lock := false
    config :=
      { defaultCriteria := safeToDeploy
        imports := []
        policy := [(['f', 'p'],
          ⟨none, some [⟨safeToDeploy, (10, 24)⟩], none,
            [(['d', 'p'], [⟨"fuzzed".data, (30, 36)⟩])], none⟩)]
        exemptions := [(['t', 'p'],
          [⟨⟨⟨1, 0, 0, [], []⟩, none⟩, [⟨"fuzzed".data, (40, 46)⟩], true, none⟩])] }
    imports := ⟨[]⟩
    audits :=
      { criteria := [("fuzzed".data, ⟨some "d".data, none,
          [⟨safeToRun, (50, 61)⟩], []⟩)]
        audits := [(['t', 'p'],
          [⟨[], [⟨"fuzzed".data, (70, 76)⟩],
            .full ⟨⟨1, 0, 0, [], []⟩, none⟩, none, [], false⟩])] }
    configSrc := []
    importsSrc := []
    auditsSrc := [] }

/-- C4 witness: the sample store validates because each of its references
is declared or built-in. -/
theorem validate_invalid_criteria_witness :
    sampleValidStore.validate = .ok () :=
  (validate_invalid_criteria sampleValidStore).1.mpr (by decide)

/-! ### Fetching foreign audits (`storage.rs` `Store::fetch_foreign_audits`,
line 429)

The network leg (`fetch_foreign_audit`, `eula_for_criteria`) is out of
scope; the fetched audit files arrive as the `fetched` list (one entry per
configured import, in map order) and the fetched description text as the
`eula` oracle. A `none` result models the `unwrap` panic on a locked
criteria entry without an inline description. -/

/-- `CriteriaChangeError`: an import changed a criteria description. -/
structure CriteriaChangeError where
  importName : Str
  criteriaName : Str
  oldDesc : Str
  newDesc : Str
deriving DecidableEq

/-- `audits_file.criteria.get_mut(name).unwrap().description = Some(desc)`,
on the entries with that name. -/
def setDescription (criteria : List (Str × CriteriaEntry)) (name : Str)
    (desc : Str) : List (Str × CriteriaEntry) :=
  criteria.map fun ce =>
    if ce.1 = name then (ce.1, { ce.2 with description := some desc }) else ce

/-- The inner loop of `fetch_foreign_audits` (storage.rs lines 457-485):
walk the fetched descriptions; without `accept_changes`, compare each with
the locked description (`unwrap` panic — `none` — when the locked entry
has no inline description); on a difference record a `CriteriaChangeError`
and `continue`, otherwise store the fetched description. -/
def processDescs (oldImports : ImportsFile) (acceptChanges : Bool)
    (importName : Str) :
    List (Str × Str) → AuditsFile → List CriteriaChangeError →
      Option (AuditsFile × List CriteriaChangeError)
  | [], file, errs => some (file, errs)
  | (criteriaName, newDesc) :: rest, file, errs =>
    match acceptChanges,
        (alookup importName oldImports.audits).bind fun f =>
          alookup criteriaName f.criteria with
    | false, some entry =>
      match entry.description with
      | none => none
      | some oldDesc =>
        if oldDesc ≠ newDesc then
          processDescs oldImports acceptChanges importName rest file
            (errs ++ [⟨importName, criteriaName, oldDesc, newDesc⟩])
        else
          match alookup criteriaName file.criteria with
          | none => none
          | some _ =>
            processDescs oldImports acceptChanges importName rest
              { file with
                criteria := setDescription file.criteria criteriaName newDesc }
              errs
    | _, _ =>
      match alookup criteriaName file.criteria with
      | none => none
      | some _ =>
        processDescs oldImports acceptChanges importName rest
          { file with
            criteria := setDescription file.criteria criteriaName newDesc }
          errs

/-- The `new_descs` computed for one fetched audit file (storage.rs
line 440): one fetched description per declared criteria. -/
def descsOf (eula : Str → Str → Str) (name : Str) (file : AuditsFile) :
    List (Str × Str) :=
  file.criteria.map fun ce => (ce.1, eula name ce.1)

/-- The outer loop of `fetch_foreign_audits` (storage.rs lines 456-489):
process each fetched file, accumulating the new imports and all criteria
changes; a panic anywhere aborts the whole call. -/
def collectImports (oldImports : ImportsFile) (eula : Str → Str → Str)
    (acceptChanges : Bool) :
    List (Str × AuditsFile) →
      Option (List (Str × AuditsFile) × List CriteriaChangeError)
  | [] => some ([], [])
  | (name, file) :: rest =>
    match processDescs oldImports acceptChanges name (descsOf eula name file)
        file [] with
    | none => none
    | some (file', errs) =>
      match collectImports oldImports eula acceptChanges rest with
      | none => none
      | some (restImports, restErrs) =>
        some ((name, file') :: restImports, errs ++ restErrs)

/-- Result of `fetch_foreign_audits`, with the post-call store. -/
inductive FetchResult where
  | panics
  | criteriaChange (errors : List CriteriaChangeError) (store : Store)
  | validationFailed (errors : List InvalidCriteriaError) (store : Store)
  | ok (store : Store)
deriving DecidableEq

/-- `storage.rs` `Store::fetch_foreign_audits` (line 429): fetch and
process the imports; on any criteria change without `accept_changes`,
return the errors and leave the store untouched; otherwise accept the new
imports and re-validate. -/
def Store.fetchForeignAudits (s : Store) (fetched : List (Str × AuditsFile))
    (eula : Str → Str → Str) (acceptChanges : Bool) : FetchResult :=
  match collectImports s.imports eula acceptChanges fetched with
  | none => .panics
  | some (newAudits, criteriaChanges) =>
    if criteriaChanges.isEmpty then
      let s' := { s with imports := ⟨newAudits⟩ }
      match s'.validate with
      | .ok _ => .ok s'
      | .error es => .validationFailed es s'
    else .criteriaChange criteriaChanges s

/-- The criteria change one fetched description triggers, if any. -/
def changeOf (oldImports : ImportsFile) (acceptChanges : Bool) (name : Str)
    (d : Str × Str) : Option CriteriaChangeError :=
  if acceptChanges then none
  else
    match (alookup name oldImports.audits).bind fun f =>
        alookup d.1 f.criteria with
    | some entry =>
      match entry.description with
      | some oldDesc =>
        if oldDesc ≠ d.2 then some ⟨name, d.1, oldDesc, d.2⟩ else none
      | none => none
    | none => none

/-- All criteria changes a fetch would surface, per file in fetch order. -/
def expectedCriteriaChanges (oldImports : ImportsFile)
    (eula : Str → Str → Str) (acceptChanges : Bool)
    (fetched : List (Str × AuditsFile)) : List CriteriaChangeError :=
  fetched.flatMap fun nf =>
    (descsOf eula nf.1 nf.2).filterMap (changeOf oldImports acceptChanges nf.1)

/-- The store as mutated by the call, when the new imports were accepted. -/
def writtenStore : FetchResult → Option Store
  | .ok s => some s
  | .validationFailed _ s => some s
  | _ => none

theorem setDescription_map_fst (cs : List (Str × CriteriaEntry)) (n : Str)
    (d : Str) : (setDescription cs n d).map Prod.fst = cs.map Prod.fst := by
  unfold setDescription
  rw [List.map_map]
  apply List.map_congr_left
  intro ce _
  by_cases h : ce.1 = n <;> simp [h]

theorem alookup_isSome_of_mem_fst {l : List (Str × α)} {k : Str} (v : α)
    (h : (k, v) ∈ l) : (alookup k l).isSome = true := by
  induction l with
  | nil => cases h
  | cons p rest ih =>
    obtain ⟨k', v'⟩ := p
    by_cases hk : k = k'
    · simp [alookup, hk]
    · rcases List.mem_cons.mp h with he | hm
      · exact absurd (congrArg Prod.fst he) hk
      · simp only [alookup, if_neg hk]
        exact ih hm

theorem setDescription_cons (k' : Str) (v' : CriteriaEntry)
    (rest : List (Str × CriteriaEntry)) (n : Str) (d : Str) :
    setDescription ((k', v') :: rest) n d
      = (k', if k' = n then { v' with description := some d } else v')
          :: setDescription rest n d := by
  unfold setDescription
  rw [List.map_cons]
  by_cases hn : k' = n
  · simp [hn]
  · simp [hn]

theorem alookup_isSome_setDescription (cs : List (Str × CriteriaEntry))
    (n : Str) (d : Str) (k : Str) :
    (alookup k (setDescription cs n d)).isSome = (alookup k cs).isSome := by
  induction cs with
  | nil => rfl
  | cons ce rest ih =>
    obtain ⟨k', v'⟩ := ce
    rw [setDescription_cons]
    by_cases hk : k = k'
    · simp [alookup, hk]
    · simp only [alookup, if_neg hk]
      exact ih

theorem mem_setDescription {cs : List (Str × CriteriaEntry)} {n : Str}
    {d : Str} {ce : Str × CriteriaEntry} (h : ce ∈ setDescription cs n d) :
    (ce.1 = n ∧ ce.2.description = some d) ∨ (ce ∈ cs ∧ ce.1 ≠ n) := by
  unfold setDescription at h
  rw [List.mem_map] at h
  obtain ⟨orig, hor, heq⟩ := h
  by_cases ho : orig.1 = n
  · left
    rw [if_pos ho] at heq
    subst heq
    exact ⟨ho, rfl⟩
  · right
    rw [if_neg ho] at heq
    subst heq
    exact ⟨hor, ho⟩

theorem processDescs_errs_mono (oldImports : ImportsFile)
    (acceptChanges : Bool) (name : Str) :
    ∀ (descs : List (Str × Str)) (file : AuditsFile)
      (errs errs' : List CriteriaChangeError) (file' : AuditsFile),
    processDescs oldImports acceptChanges name descs file errs
        = some (file', errs') →
    ∃ suffix, errs' = errs ++ suffix := by
  intro descs
  induction descs with
  | nil =>
    intro file errs errs' file' h
    simp only [processDescs, Option.some.injEq, Prod.mk.injEq] at h
    exact ⟨[], by simp [← h.2]⟩
  | cons d rest ih =>
    obtain ⟨cn, nd⟩ := d
    intro file errs errs' file' h
    simp only [processDescs] at h
    split at h
    · -- accept_changes is false and there is a locked entry
      split at h
      · cases h
      · split at h
        · -- description differs: record the change and continue
          rename_i entry oldDesc _ _
          obtain ⟨suffix, hs⟩ := ih _ _ _ _ h
          exact ⟨⟨name, cn, oldDesc, nd⟩ :: suffix, by simp [hs]⟩
        · split at h
          · cases h
          · exact ih _ _ _ _ h
    · -- accept_changes, or no locked entry: store the description
      split at h
      · cases h
      · exact ih _ _ _ _ h

theorem processDescs_panics (oldImports : ImportsFile) (name : Str) :
    ∀ (descs : List (Str × Str)) (file : AuditsFile)
      (errs : List CriteriaChangeError),
    (∃ d ∈ descs, ∃ entry,
      ((alookup name oldImports.audits).bind fun f =>
          alookup d.1 f.criteria) = some entry ∧
        entry.description = none) →
    processDescs oldImports false name descs file errs = none := by
  intro descs
  induction descs with
  | nil =>
    rintro file errs ⟨d, hd, -⟩
    cases hd
  | cons d rest ih =>
    obtain ⟨cn, nd⟩ := d
    rintro file errs ⟨d', hd', entry, hentry, hdescnone⟩
    rcases List.mem_cons.mp hd' with rfl | hmem
    · simp only [processDescs, hentry, hdescnone]
    · have hbad : ∃ d ∈ rest, ∃ entry,
          ((alookup name oldImports.audits).bind fun f =>
              alookup d.1 f.criteria) = some entry ∧
            entry.description = none := ⟨d', hmem, entry, hentry, hdescnone⟩
      cases hold : (alookup name oldImports.audits).bind fun f =>
          alookup cn f.criteria with
      | none =>
        simp only [processDescs, hold]
        cases hl : alookup cn file.criteria with
        | none => simp
        | some e0 => exact ih _ _ hbad
      | some e =>
        cases he : e.description with
        | none => simp only [processDescs, hold, he]
        | some od =>
          simp only [processDescs, hold, he]
          by_cases hne : od ≠ nd
          · rw [if_pos hne]
            exact ih _ _ hbad
          · rw [if_neg hne]
            cases hl : alookup cn file.criteria with
            | none => simp
            | some e0 => exact ih _ _ hbad

theorem processDescs_updated (oldImports : ImportsFile)
    (acceptChanges : Bool) (name : Str) :
    ∀ (descs : List (Str × Str)) (file : AuditsFile)
      (errs : List CriteriaChangeError) (file' : AuditsFile),
    processDescs oldImports acceptChanges name descs file errs
        = some (file', errs) →
    ∀ ce ∈ file'.criteria,
      ce.2.description.isSome = true ∨
        (ce ∈ file.criteria ∧ ce.1 ∉ descs.map Prod.fst) := by
  intro descs
  induction descs with
  | nil =>
    intro file errs file' h ce hce
    simp only [processDescs, Option.some.injEq, Prod.mk.injEq] at h
    exact .inr ⟨h.1.symm ▸ hce, by simp⟩
  | cons d rest ih =>
    obtain ⟨cn, nd⟩ := d
    intro file errs file' h ce hce
    simp only [processDescs] at h
    have hupd : ∀ (file₁ : AuditsFile),
        file₁.criteria = setDescription file.criteria cn nd →
        processDescs oldImports acceptChanges name rest file₁ errs
            = some (file', errs) →
        ce.2.description.isSome = true ∨
          (ce ∈ file.criteria ∧ ce.1 ∉ ((cn, nd) :: rest).map Prod.fst) := by
      intro file₁ hfc hrun
      rcases ih _ _ _ hrun ce hce with hdone | ⟨hmem, hnotin⟩
      · exact .inl hdone
      · rw [hfc] at hmem
        rcases mem_setDescription hmem with ⟨_, hsome⟩ | ⟨horig, hne⟩
        · exact .inl (by simp [hsome])
        · refine .inr ⟨horig, ?_⟩
          simp only [List.map_cons, List.mem_cons]
          rintro (h1 | h2)
          · exact hne h1
          · exact hnotin h2
    split at h
    · split at h
      · cases h
      · split at h
        · -- a recorded change: the error list strictly grows, contradiction
          exfalso
          obtain ⟨suffix, hs⟩ := processDescs_errs_mono _ _ _ _ _ _ _ _ h
          have hlen := congrArg List.length hs
          rw [List.length_append, List.length_append] at hlen
          simp only [List.length_singleton] at hlen
          omega
        · split at h
          · cases h
          · exact hupd _ rfl h
    · split at h
      · cases h
      · exact hupd _ rfl h

theorem processDescs_spec (oldImports : ImportsFile) (acceptChanges : Bool)
    (name : Str) :
    ∀ (descs : List (Str × Str)) (file : AuditsFile)
      (errs : List CriteriaChangeError),
    (∀ d ∈ descs, (alookup d.1 file.criteria).isSome = true) →
    (∀ d ∈ descs,
      (((alookup name oldImports.audits).bind fun f =>
          alookup d.1 f.criteria).all fun entry => entry.description.isSome)
        = true) →
    ∃ file', processDescs oldImports acceptChanges name descs file errs
        = some (file',
            errs ++ descs.filterMap (changeOf oldImports acceptChanges name)) := by
  intro descs
  induction descs with
  | nil =>
    intro file errs _ _
    exact ⟨file, by simp [processDescs]⟩
  | cons d rest ih =>
    obtain ⟨cn, nd⟩ := d
    intro file errs hkeys hdesc
    obtain ⟨e0, hl⟩ := Option.isSome_iff_exists.mp
      (hkeys _ (List.mem_cons_self ..))
    have hkeys' : ∀ d ∈ rest,
        (alookup d.1 ({ file with
          criteria := setDescription file.criteria cn nd } : AuditsFile).criteria).isSome
          = true := by
      intro d hd
      rw [alookup_isSome_setDescription]
      exact hkeys d (List.mem_cons_of_mem _ hd)
    have hdesc' : ∀ d ∈ rest,
        (((alookup name oldImports.audits).bind fun f =>
            alookup d.1 f.criteria).all fun entry => entry.description.isSome)
          = true :=
      fun d hd => hdesc d (List.mem_cons_of_mem _ hd)
    cases acceptChanges with
    | true =>
      obtain ⟨file', hrun⟩ := ih _ errs hkeys' hdesc'
      refine ⟨file', ?_⟩
      simp only [processDescs, hl, hrun, List.filterMap_cons]
      have : changeOf oldImports true name (cn, nd) = none := by
        simp [changeOf]
      rw [this]
    | false =>
      cases hold : (alookup name oldImports.audits).bind fun f =>
          alookup cn f.criteria with
      | none =>
        obtain ⟨file', hrun⟩ := ih _ errs hkeys' hdesc'
        refine ⟨file', ?_⟩
        simp only [processDescs, hold, hl, hrun, List.filterMap_cons]
        have : changeOf oldImports false name (cn, nd) = none := by
          simp [changeOf, hold]
        rw [this]
      | some entry =>
        have hs : entry.description.isSome = true := by
          have := hdesc _ (List.mem_cons_self ..)
          rw [hold] at this
          simpa [Option.all] using this
        obtain ⟨od, he⟩ := Option.isSome_iff_exists.mp hs
        by_cases hne : od ≠ nd
        · obtain ⟨file', hrun⟩ :=
            ih file (errs ++ [⟨name, cn, od, nd⟩])
              (fun d hd => hkeys d (List.mem_cons_of_mem _ hd)) hdesc'
          refine ⟨file', ?_⟩
          simp only [processDescs, hold, he, if_pos hne, hrun,
            List.filterMap_cons]
          have : changeOf oldImports false name (cn, nd)
              = some ⟨name, cn, od, nd⟩ := by
            simp [changeOf, hold, he, hne]
          rw [this]
          simp
        · obtain ⟨file', hrun⟩ := ih _ errs hkeys' hdesc'
          refine ⟨file', ?_⟩
          simp only [processDescs, hold, he, if_neg hne, hl, hrun,
            List.filterMap_cons]
          have : changeOf oldImports false name (cn, nd) = none := by
            simp [changeOf, hold, he, hne]
          rw [this]

theorem descsOf_map_fst (eula : Str → Str → Str) (name : Str)
    (file : AuditsFile) :
    (descsOf eula name file).map Prod.fst = file.criteria.map Prod.fst := by
  simp [descsOf, List.map_map]

theorem collectImports_spec (oldImports : ImportsFile)
    (eula : Str → Str → Str) (acceptChanges : Bool) :
    ∀ (fetched : List (Str × AuditsFile)),
    (∀ nf ∈ fetched, ∀ d ∈ descsOf eula nf.1 nf.2,
      (((alookup nf.1 oldImports.audits).bind fun f =>
          alookup d.1 f.criteria).all fun entry => entry.description.isSome)
        = true) →
    ∃ files', collectImports oldImports eula acceptChanges fetched
        = some (files',
          expectedCriteriaChanges oldImports eula acceptChanges fetched) := by
  intro fetched
  induction fetched with
  | nil => intro _; exact ⟨[], rfl⟩
  | cons nf rest ih =>
    obtain ⟨name, file⟩ := nf
    intro hdesc
    have hkeys : ∀ d ∈ descsOf eula name file,
        (alookup d.1 file.criteria).isSome = true := by
      intro d hd
      obtain ⟨ce, hce, rfl⟩ := List.mem_map.mp hd
      exact alookup_isSome_of_mem_fst ce.2 (by simpa using hce)
    obtain ⟨file', hrun⟩ := processDescs_spec oldImports acceptChanges name
      (descsOf eula name file) file [] hkeys
      (hdesc _ (List.mem_cons_self ..))
    obtain ⟨rest', hrest⟩ := ih fun nf hnf => hdesc nf (List.mem_cons_of_mem _ hnf)
    refine ⟨(name, file') :: rest', ?_⟩
    simp only [collectImports, hrun, hrest, List.nil_append]
    simp [expectedCriteriaChanges, List.flatMap_cons]

theorem collectImports_panics (oldImports : ImportsFile)
    (eula : Str → Str → Str) :
    ∀ (fetched : List (Str × AuditsFile)) (name : Str) (file : AuditsFile),
    (name, file) ∈ fetched →
    (∃ d ∈ descsOf eula name file, ∃ entry,
      ((alookup name oldImports.audits).bind fun f =>
          alookup d.1 f.criteria) = some entry ∧
        entry.description = none) →
    collectImports oldImports eula false fetched = none := by
  intro fetched
  induction fetched with
  | nil =>
    intro name file h _
    cases h
  | cons nf rest ih =>
    obtain ⟨n0, f0⟩ := nf
    intro name file hmem hbad
    rcases List.mem_cons.mp hmem with heq | hmem'
    · obtain ⟨rfl, rfl⟩ := Prod.mk.injEq .. ▸ heq
      simp only [collectImports,
        processDescs_panics oldImports name _ _ _ hbad]
    · simp only [collectImports]
      cases hp : processDescs oldImports false n0 (descsOf eula n0 f0) f0 [] with
      | none => rfl
      | some pr =>
        obtain ⟨f1, errs1⟩ := pr
        simp only [ih name file hmem' hbad]

theorem collectImports_updated (oldImports : ImportsFile)
    (eula : Str → Str → Str) (acceptChanges : Bool) :
    ∀ (fetched : List (Str × AuditsFile)) (files' : List (Str × AuditsFile)),
    collectImports oldImports eula acceptChanges fetched = some (files', []) →
    ∀ nf ∈ files', ∀ ce ∈ nf.2.criteria, ce.2.description.isSome = true := by
  intro fetched
  induction fetched with
  | nil =>
    intro files' h nf hnf
    simp only [collectImports, Option.some.injEq, Prod.mk.injEq] at h
    rw [← h.1] at hnf
    cases hnf
  | cons hd rest ih =>
    obtain ⟨name, file⟩ := hd
    intro files' h nf hnf ce hce
    simp only [collectImports] at h
    split at h
    · cases h
    · rename_i file₁ errs₁ hp
      split at h
      · cases h
      · rename_i rest' restErrs hrest
        simp only [Option.some.injEq, Prod.mk.injEq] at h
        obtain ⟨hfiles, herrs⟩ := h
        have hnil : errs₁ = [] ∧ restErrs = [] := by
          simpa using herrs
        rw [← hfiles] at hnf
        rcases List.mem_cons.mp hnf with rfl | hmem
        · -- the head file: every description was set by the inner loop
          rw [hnil.1] at hp
          rcases processDescs_updated oldImports acceptChanges name _ _ _ _
              hp ce hce with hdone | ⟨hmemo, hnotin⟩
          · exact hdone
          · exfalso
            apply hnotin
            rw [descsOf_map_fst]
            exact List.mem_map.mpr ⟨ce, hmemo, rfl⟩
        · exact ih rest' (by rw [hrest, hnil.2]) nf hmem ce hce

/-- C3: with `accept_changes = false`, if any fetched description differs
from the one recorded in the imports lock, `fetch_foreign_audits` returns
a `CriteriaChange` error carrying the import name, criteria name, old text
and new text for every such difference, and the store — its `imports`
field in particular — is left unchanged by the call. (The hypothesis rules
out the `unwrap` panic of C9: every consulted locked entry carries an
inline description.) -/
theorem fetch_criteria_change_atomic (s : Store)
    (fetched : List (Str × AuditsFile)) (eula : Str → Str → Str)
    (hdesc : ∀ nf ∈ fetched, ∀ d ∈ descsOf eula nf.1 nf.2,
      (((alookup nf.1 s.imports.audits).bind fun f =>
          alookup d.1 f.criteria).all fun entry => entry.description.isSome)
        = true)
    (hchange : expectedCriteriaChanges s.imports eula false fetched ≠ []) :
    s.fetchForeignAudits fetched eula false
      = .criteriaChange (expectedCriteriaChanges s.imports eula false fetched) s := by
  obtain ⟨files', hrun⟩ := collectImports_spec s.imports eula false fetched hdesc
  unfold Store.fetchForeignAudits
  rw [hrun]
  simp [List.isEmpty_iff, hchange]

/-- A store whose imports lock records one criteria description. -/
def sampleFetchStore : Store :=
  { lock := true
    config := ⟨safeToDeploy, [(['p'], ⟨"u".data, [], []⟩)], [], []⟩
    imports := ⟨[(['p'], ⟨[(['x'], ⟨some "old".data, none, [], []⟩)], []⟩)]⟩
    audits := ⟨[], []⟩
    configSrc := []
    importsSrc := []
    auditsSrc := [] }

/-- The matching fetched snapshot, still declaring criteria `x`. -/
def sampleFetched : List (Str × AuditsFile) :=
  [(['p'], ⟨[(['x'], ⟨none, none, [], []⟩)], []⟩)]

/-- A fetched description oracle that returns changed text. -/
def sampleEula : Str → Str → Str := fun _ _ => "new".data

/-- C3 witness: a fetched description change is reported and the store is
returned unchanged. -/
theorem fetch_criteria_change_atomic_witness :
    Store.fetchForeignAudits sampleFetchStore sampleFetched sampleEula false
      = .criteriaChange
          (expectedCriteriaChanges sampleFetchStore.imports sampleEula false
            sampleFetched)
          sampleFetchStore :=
  fetch_criteria_change_atomic sampleFetchStore sampleFetched sampleEula
    (by decide) (by decide)

/-- C9: with `accept_changes = false`, a locked criteria entry without an
inline description makes `fetch_foreign_audits` panic (the `unwrap` on the
locked description) instead of returning an error, as soon as the fetched
source still declares that criteria; and the comparison's invariant — that
every criteria entry stored in the imports lock carries an inline
description — is established by the writing path, which sets the fetched
description on every entry it stores. -/
theorem fetch_unwrap_panic_and_invariant :
    (∀ (s : Store) (fetched : List (Str × AuditsFile))
        (eula : Str → Str → Str) (name : Str) (file : AuditsFile)
        (ce : Str × CriteriaEntry) (entry : CriteriaEntry),
      (name, file) ∈ fetched → ce ∈ file.criteria →
      ((alookup name s.imports.audits).bind fun f =>
          alookup ce.1 f.criteria) = some entry →
      entry.description = none →
      s.fetchForeignAudits fetched eula false = .panics) ∧
      (∀ (s : Store) (fetched : List (Str × AuditsFile))
          (eula : Str → Str → Str) (acceptChanges : Bool) (s' : Store),
        writtenStore (s.fetchForeignAudits fetched eula acceptChanges)
            = some s' →
        ∀ nf ∈ s'.imports.audits, ∀ ce ∈ nf.2.criteria,
          ce.2.description.isSome = true) := by
  constructor
  · intro s fetched eula name file ce entry hmem hce hentry hnone
    have hbad : ∃ d ∈ descsOf eula name file, ∃ entry,
        ((alookup name s.imports.audits).bind fun f =>
            alookup d.1 f.criteria) = some entry ∧
          entry.description = none :=
      ⟨(ce.1, eula name ce.1), List.mem_map.mpr ⟨ce, hce, rfl⟩,
        entry, hentry, hnone⟩
    unfold Store.fetchForeignAudits
    rw [collectImports_panics s.imports eula fetched name file hmem hbad]
  · intro s fetched eula acceptChanges s' hwritten nf hnf ce hce
    unfold Store.fetchForeignAudits at hwritten
    split at hwritten
    · cases hwritten
    · rename_i newAudits criteriaChanges hrun
      cases criteriaChanges with
      | cons c cs =>
        simp only [List.isEmpty_cons, Bool.false_eq_true, if_false,
          writtenStore] at hwritten
        cases hwritten
      | nil =>
        simp only [List.isEmpty_nil, if_true] at hwritten
        have hs' : s'.imports.audits = newAudits := by
          split at hwritten <;>
            simp only [writtenStore, Option.some.injEq] at hwritten <;>
            rw [← hwritten]
        rw [hs'] at hnf
        exact collectImports_updated s.imports eula acceptChanges fetched
          newAudits hrun nf hnf ce hce

/-- An imports lock entry recorded without an inline description
(description-url only). -/
def samplePanicStore : Store :=
  { lock := true
    config := ⟨safeToDeploy, [(['p'], ⟨"u".data, [], []⟩)], [], []⟩
    imports := ⟨[(['p'],
      ⟨[(['x'], ⟨none, some "url".data, [], []⟩)], []⟩)]⟩
    audits := ⟨[], []⟩
    configSrc := []
    importsSrc := []
    auditsSrc := [] }

/-- C9 witness: fetching against the description-less locked entry
panics. -/
theorem fetch_unwrap_panic_witness :
    Store.fetchForeignAudits samplePanicStore sampleFetched sampleEula false
      = .panics :=
  fetch_unwrap_panic_and_invariant.1 samplePanicStore sampleFetched sampleEula
    ['p'] ⟨[(['x'], ⟨none, none, [], []⟩)], []⟩ (['x'], ⟨none, none, [], []⟩)
    ⟨none, some "url".data, [], []⟩ (by decide) (by decide) (by decide) (by decide)

/-! ### Import minimization (spec §4.7)

The resolver and `get_updated_imports_file` are not under `src/` (only
their tests and callers are), so the minimizer is modelled from the spec.
The resolver outcome enters as two oracles: `needed` (the packages the
project transitively needs) and `used` (the foreign audits the resolver
actually used, a subset of the needed packages' audits). -/

/-- Whether an audit entry is a violation. -/
def isViolationEntry (e : AuditEntry) : Bool :=
  match e.kind with
  | .violation _ => true
  | _ => false

/-- Modelled from the spec: §4.7 rules 1, 2 and 6 — an audit entry is
selected for the next lock when its package is not excluded for the
source, and it was used by the resolver or it is a violation touching a
package present in the project. -/
def entrySelected (excl : List Str) (needed : Str → Bool)
    (used : Str → AuditEntry → Bool) (pkg : Str) (e : AuditEntry) : Bool :=
  !excl.contains pkg &&
    (used pkg e || (isViolationEntry e && needed pkg))

/-- Modelled from the spec: §4.7 for one source — rule 1 (start from the
used set), rule 7 (keep previously locked audits that are still selected,
verbatim and in their locked order), the stale-audit invariant of §3
(locked audits no longer in the live snapshot are dropped), and rule 4
(criteria descriptions come from the newest snapshot, here the whole
criteria table). Packages whose selection is empty are omitted.
`minimizeEntries` is the per-package selection: locked entries still in
the snapshot and selected are kept as-is, then selected snapshot entries
not already locked are appended. -/
def minimizeEntries (excl : List Str) (needed : Str → Bool)
    (used : Str → AuditEntry → Bool) (old : AuditsFile) (pkg : Str)
    (snapEntries : List AuditEntry) : List AuditEntry :=
  let oldEntries := (alookup pkg old.audits).getD []
  let kept := oldEntries.filter fun e =>
    entrySelected excl needed used pkg e && decide (e ∈ snapEntries)
  let fresh := snapEntries.filter fun e =>
    entrySelected excl needed used pkg e && !decide (e ∈ oldEntries)
  kept ++ fresh

/-- Modelled from the spec: the next lock for one source — per-package
minimized entries over the snapshot's packages, the criteria table taken
wholesale from the newest snapshot. -/
def minimizeSource (excl : List Str) (needed : Str → Bool)
    (used : Str → AuditEntry → Bool) (old snap : AuditsFile) : AuditsFile :=
  { criteria := snap.criteria
    audits := snap.audits.filterMap fun pe =>
      let out := minimizeEntries excl needed used old pe.1 pe.2
      if out.isEmpty then none else some (pe.1, out) }

/-- Modelled from the spec: the next lock entry for one configured source;
rule 5 (with `force_updates` the whole snapshot, minus excluded packages,
is taken) and rule 6 (excludes). -/
def lockBody (needed : Str → Bool) (used : Str → AuditEntry → Bool)
    (prevLock : ImportsFile) (snapshots : Str → Option AuditsFile)
    (forceUpdates : Bool) (ni : Str × RemoteImport) :
    Option (Str × AuditsFile) :=
  (snapshots ni.1).map fun snap =>
    let old := (alookup ni.1 prevLock.audits).getD ⟨[], []⟩
    (ni.1,
      if forceUpdates then
        { snap with
          audits := snap.audits.filter fun pe => !ni.2.exclude.contains pe.1 }
      else minimizeSource ni.2.exclude needed used old snap)

/-- Modelled from the spec: §4.7 — the next imports lock, per configured
source in order. The resolver's `get_updated_imports_file` is absent from
`src/`; the resolver outcome enters as the `needed` / `used` oracles. -/
def getUpdatedImportsFile (needed : Str → Bool)
    (used : Str → AuditEntry → Bool) (imports : List (Str × RemoteImport))
    (prevLock : ImportsFile) (snapshots : Str → Option AuditsFile)
    (forceUpdates : Bool) : ImportsFile :=
  ⟨imports.filterMap (lockBody needed used prevLock snapshots forceUpdates)⟩

theorem entrySelected_needed {excl : List Str} {needed : Str → Bool}
    {used : Str → AuditEntry → Bool} {pkg : Str} {e : AuditEntry}
    (husedneeded : ∀ p e', used p e' = true → needed p = true)
    (h : entrySelected excl needed used pkg e = true) : needed pkg = true := by
  simp only [entrySelected, Bool.and_eq_true, Bool.or_eq_true] at h
  rcases h.2 with hu | hv
  · exact husedneeded _ _ hu
  · exact hv.2

theorem alookup_eq_some_of_nodup_keys {l : List (Str × α)} {k : Str} {v : α}
    (hn : (l.map Prod.fst).Nodup) (hm : (k, v) ∈ l) : alookup k l = some v := by
  induction l with
  | nil => cases hm
  | cons p rest ih =>
    obtain ⟨k', v'⟩ := p
    rw [List.map_cons, List.nodup_cons] at hn
    rcases List.mem_cons.mp hm with he | hm'
    · obtain ⟨rfl, rfl⟩ := Prod.mk.injEq .. ▸ he
      simp [alookup]
    · have hne : k ≠ k' := by
        rintro rfl
        exact hn.1 (List.mem_map.mpr ⟨(k, v), hm', rfl⟩)
      simp only [alookup, if_neg hne]
      exact ih hn.2 hm'

theorem filterMap_eq_map_filter (f : α → Option β) (p : α → Bool) (g : α → β)
    (hf : ∀ x, f x = if p x then some (g x) else none) :
    ∀ l : List α, l.filterMap f = (l.filter p).map g := by
  intro l
  induction l with
  | nil => rfl
  | cons x xs ih =>
    rw [List.filterMap_cons, List.filter_cons, hf x]
    by_cases hp : p x = true
    · rw [if_pos hp, if_pos hp, List.map_cons, ih]
    · rw [if_neg hp, if_neg (by simpa using hp), ih]

theorem keySorted_nodup_keys {l : List (Str × α)} (h : KeySorted l) :
    (l.map Prod.fst).Nodup := by
  unfold KeySorted at h
  have hmap : List.Pairwise strLt (l.map Prod.fst) :=
    List.Pairwise.map Prod.fst (fun a b hab => hab) h
  exact hmap.imp fun hab => by
    rintro rfl
    exact strLt_irrefl _ hab

theorem keySorted_nodup {l : List (Str × α)} (h : KeySorted l) : l.Nodup :=
  h.imp fun hab => by
    rintro rfl
    exact strLt_irrefl _ hab

theorem minimizeEntries_of_locked {excl : List Str} {needed : Str → Bool}
    {used : Str → AuditEntry → Bool} {old : AuditsFile} {pkg : Str}
    {ses : List AuditEntry}
    (hl : alookup pkg old.audits = some ses)
    (hsel : ∀ e ∈ ses, entrySelected excl needed used pkg e = true) :
    minimizeEntries excl needed used old pkg ses = ses := by
  unfold minimizeEntries
  rw [hl]
  simp only [Option.getD_some]
  have hkept : (ses.filter fun e =>
      entrySelected excl needed used pkg e && decide (e ∈ ses)) = ses := by
    rw [List.filter_eq_self]
    intro e he
    simp [hsel e he, he]
  have hfresh : (ses.filter fun e =>
      entrySelected excl needed used pkg e && !decide (e ∈ ses)) = [] := by
    rw [List.filter_eq_nil_iff]
    intro e he
    simp [he]
  rw [hkept, hfresh, List.append_nil]

theorem minimizeEntries_of_unlocked {excl : List Str} {needed : Str → Bool}
    {used : Str → AuditEntry → Bool} {old : AuditsFile} {pkg : Str}
    {ses : List AuditEntry}
    (hl : alookup pkg old.audits = none) :
    minimizeEntries excl needed used old pkg ses
      = ses.filter fun e => entrySelected excl needed used pkg e := by
  unfold minimizeEntries
  rw [hl]
  simp only [Option.getD_none, List.filter_nil, List.nil_append]
  apply List.filter_congr
  intro e _
  simp

theorem mem_minimizeEntries_selected {excl : List Str} {needed : Str → Bool}
    {used : Str → AuditEntry → Bool} {old : AuditsFile} {pkg : Str}
    {ses : List AuditEntry} {e : AuditEntry}
    (h : e ∈ minimizeEntries excl needed used old pkg ses) :
    entrySelected excl needed used pkg e = true := by
  unfold minimizeEntries at h
  rcases List.mem_append.mp h with hm | hm <;>
    exact (Bool.and_eq_true ..).mp (List.mem_filter.mp hm).2 |>.1

theorem minimizeSource_stable (excl : List Str) (needed : Str → Bool)
    (used : Str → AuditEntry → Bool) (old snap : AuditsFile)
    (husedneeded : ∀ p e, used p e = true → needed p = true)
    (hcrit : snap.criteria = old.criteria)
    (hso : KeySorted old.audits) (hss : KeySorted snap.audits)
    (hagree : ∀ pkg, needed pkg = true →
      alookup pkg old.audits = alookup pkg snap.audits)
    (hfix : ∀ pe ∈ old.audits, pe.2 ≠ [] ∧
      ∀ e ∈ pe.2, entrySelected excl needed used pe.1 e = true) :
    minimizeSource excl needed used old snap = old := by
  have hmem : ∀ pkg out,
      ((pkg, out) ∈ (minimizeSource excl needed used old snap).audits ↔
        (pkg, out) ∈ old.audits) := by
    intro pkg out
    constructor
    · intro h
      unfold minimizeSource at h
      simp only [List.mem_filterMap] at h
      obtain ⟨pe, hpe, hf⟩ := h
      by_cases hemp : (minimizeEntries excl needed used old pe.1 pe.2).isEmpty
      · rw [if_pos hemp] at hf
        cases hf
      · rw [if_neg hemp, Option.some.injEq] at hf
        obtain ⟨rfl, rfl⟩ := Prod.mk.injEq .. ▸ hf
        -- the selection is non-empty, so some selected entry shows the
        -- package is needed
        obtain ⟨e, he⟩ : ∃ e, e ∈ minimizeEntries excl needed used old pe.1 pe.2 := by
          cases hm : minimizeEntries excl needed used old pe.1 pe.2 with
          | nil => rw [hm] at hemp; exact absurd rfl hemp
          | cons a l =>
            refine ⟨a, ?_⟩
            simp [hm]
        have hneed : needed pe.1 = true :=
          entrySelected_needed husedneeded (mem_minimizeEntries_selected he)
        have hsnap : alookup pe.1 snap.audits = some pe.2 :=
          alookup_eq_some_of_mem hss (by simpa using hpe)
        cases hold : alookup pe.1 old.audits with
        | none =>
          rw [hagree _ hneed, hsnap] at hold
          cases hold
        | some ses =>
          have hses : ses = pe.2 := by
            have := hold.symm.trans ((hagree _ hneed).trans hsnap)
            simpa using this
          subst hses
          have hsel := (hfix _ (mem_of_alookup_eq_some hold)).2
          rw [minimizeEntries_of_locked hold hsel]
          exact mem_of_alookup_eq_some hold
    · intro h
      have hold : alookup pkg old.audits = some out :=
        alookup_eq_some_of_mem hso h
      obtain ⟨hne, hsel⟩ := hfix _ h
      have hneed : needed pkg = true := by
        cases hout : out with
        | nil => exact absurd hout hne
        | cons a l =>
          exact entrySelected_needed husedneeded
            (hsel a (by rw [hout]; exact List.mem_cons_self ..))
      have hsnap : alookup pkg snap.audits = some out :=
        (hagree _ hneed).symm.trans hold
      have hmin : minimizeEntries excl needed used old pkg out = out :=
        minimizeEntries_of_locked hold hsel
      unfold minimizeSource
      simp only [List.mem_filterMap]
      refine ⟨(pkg, out), mem_of_alookup_eq_some hsnap, ?_⟩
      simp only [hmin]
      rw [if_neg (by simpa using hne)]
  -- both sides are sorted association lists with the same members
  have hsorted : KeySorted (minimizeSource excl needed used old snap).audits := by
    unfold minimizeSource
    simp only []
    rw [filterMap_eq_map_filter _
      (fun pe => !(minimizeEntries excl needed used old pe.1 pe.2).isEmpty)
      (fun pe => (pe.1, minimizeEntries excl needed used old pe.1 pe.2))
      (by
        intro pe
        cases hemp : (minimizeEntries excl needed used old pe.1 pe.2).isEmpty <;>
          simp [hemp])]
    exact List.Pairwise.map _ (fun a b hab => hab)
      ((hss.filter _ : KeySorted _))
  haveI : IsAntisymm (Str × List AuditEntry) fun a b => strLt a.1 b.1 :=
    ⟨fun a b h1 h2 => absurd (strLt_trans h1 h2) (strLt_irrefl _)⟩
  have haudits : (minimizeSource excl needed used old snap).audits = old.audits := by
    apply List.eq_of_perm_of_sorted _ hsorted hso
    rw [List.perm_ext_iff_of_nodup (keySorted_nodup hsorted) (keySorted_nodup hso)]
    intro pe
    obtain ⟨pkg, out⟩ := pe
    exact hmem pkg out
  have hc : (minimizeSource excl needed used old snap).criteria = old.criteria := hcrit
  cases hms : minimizeSource excl needed used old snap with
  | mk c a =>
    cases old with
    | mk oc oa =>
      rw [hms] at haudits hc
      simp only [] at haudits hc
      rw [haudits, hc]

theorem filterMap_eq_of_forall₂ {α β : Type} (body : β → Option α)
    {ll : List α} {il : List β}
    (h : List.Forall₂ (fun lf ni => body ni = some lf) ll il) :
    il.filterMap body = ll := by
  induction h with
  | nil => rfl
  | cons hb _ ih => rw [List.filterMap_cons, hb, ih]

/-- C5: stability of import minimization. If the previous imports lock
covers exactly the configured sources and is in steady state — every
locked audit is selected by the minimizer's rules, i.e. the lock is a
previous minimization output for the same project — and every source's
fresh snapshot differs from the lock only in audits for packages the
project does not transitively need (same criteria tables, in particular
no description changes, and no violations for project packages beyond
those already locked), then running the minimizer with
`force_updates = false` returns the previous lock unchanged. -/
theorem import_minimization_stable (needed : Str → Bool)
    (used : Str → AuditEntry → Bool) (imports : List (Str × RemoteImport))
    (prevLock : ImportsFile) (snapshots : Str → Option AuditsFile)
    (husedneeded : ∀ p e, used p e = true → needed p = true)
    (hnodup : (imports.map Prod.fst).Nodup)
    (halign : prevLock.audits.map Prod.fst = imports.map Prod.fst)
    (hsrc : ∀ ni ∈ imports, ∀ oldF, alookup ni.1 prevLock.audits = some oldF →
      ∃ snap, snapshots ni.1 = some snap ∧
        snap.criteria = oldF.criteria ∧
        KeySorted oldF.audits ∧ KeySorted snap.audits ∧
        (∀ pkg, needed pkg = true →
          alookup pkg oldF.audits = alookup pkg snap.audits) ∧
        (∀ pe ∈ oldF.audits, pe.2 ≠ [] ∧
          ∀ e ∈ pe.2, entrySelected ni.2.exclude needed used pe.1 e = true)) :
    getUpdatedImportsFile needed used imports prevLock snapshots false
      = prevLock := by
  have hlocknodup : (prevLock.audits.map Prod.fst).Nodup := by
    rw [halign]; exact hnodup
  have hf2 : ∀ (il : List (Str × RemoteImport)) (ll : List (Str × AuditsFile)),
      ll.map Prod.fst = il.map Prod.fst →
      (∀ ni ∈ il, ni ∈ imports) → (∀ lf ∈ ll, lf ∈ prevLock.audits) →
      List.Forall₂
        (fun lf ni => lockBody needed used prevLock snapshots false ni = some lf)
        ll il := by
    intro il
    induction il with
    | nil =>
      intro ll hmap _ _
      cases ll with
      | nil => exact List.Forall₂.nil
      | cons a l => simp at hmap
    | cons ni il' ih =>
      intro ll hmap hil hll
      cases ll with
      | nil => simp at hmap
      | cons lf ll' =>
        simp only [List.map_cons, List.cons.injEq] at hmap
        refine List.Forall₂.cons ?_
          (ih ll' hmap.2 (fun x hx => hil x (List.mem_cons_of_mem _ hx))
            (fun x hx => hll x (List.mem_cons_of_mem _ hx)))
        have hlfmem : lf ∈ prevLock.audits := hll lf (List.mem_cons_self ..)
        have hlook : alookup ni.1 prevLock.audits = some lf.2 := by
          rw [← hmap.1]
          exact alookup_eq_some_of_nodup_keys hlocknodup (by simpa using hlfmem)
        obtain ⟨snap, hsnap, hcrit, hso, hss, hagree, hfix⟩ :=
          hsrc ni (hil ni (List.mem_cons_self ..)) lf.2 hlook
        have hbody : lockBody needed used prevLock snapshots false ni
            = some (ni.1, minimizeSource ni.2.exclude needed used lf.2 snap) := by
          unfold lockBody
          rw [hsnap, hlook]
          rfl
        rw [hbody, minimizeSource_stable ni.2.exclude needed used lf.2 snap
          husedneeded hcrit hso hss hagree hfix, ← hmap.1]
  unfold getUpdatedImportsFile
  rw [filterMap_eq_of_forall₂ _
    (hf2 imports prevLock.audits halign (fun _ h => h) (fun _ h => h))]

instance {α : Type} : DecidableRel fun (a b : Str × α) => strLt a.1 b.1 :=
  fun a b => inferInstanceAs (Decidable (strCmp a.1 b.1 = .lt))

instance {α : Type} (l : List (Str × α)) : Decidable (KeySorted l) :=
  inferInstanceAs (Decidable (List.Pairwise _ l))

/-- The project needs only package `u`. -/
def wNeeded : Str → Bool := fun p => decide (p = ['u'])

/-- The resolver used exactly the one locked audit of `u`. -/
def wUsed : Str → AuditEntry → Bool :=
  fun p e => decide (p = ['u']) && decide (e = sampleAuditA)

/-- One configured import source `s` with no excludes. -/
def wImports : List (Str × RemoteImport) := [(['s'], ⟨"url".data, [], []⟩)]

/-- The locked audits file for source `s`: just the used audit of `u`. -/
def wLockFile : AuditsFile := ⟨[], [(['u'], [sampleAuditA])]⟩

/-- The previous imports lock. -/
def wLock : ImportsFile := ⟨[(['s'], wLockFile)]⟩

/-- The fresh snapshot for `s`: the lock plus an audit for the unneeded
package `z`. -/
def wSnapFile : AuditsFile :=
  ⟨[], [(['u'], [sampleAuditA]), (['z'], [sampleAuditB])]⟩

/-- Snapshot oracle for the witness. -/
def wSnapshots : Str → Option AuditsFile :=
  fun n => if n = ['s'] then some wSnapFile else none

/-- C5 witness: a snapshot that adds only an audit for an unneeded package
leaves the minimized lock exactly equal to the previous one. -/
theorem import_minimization_stable_witness :
    getUpdatedImportsFile wNeeded wUsed wImports wLock wSnapshots false
      = wLock := by
  apply import_minimization_stable
  · intro p e h
    simp only [wUsed, Bool.and_eq_true, decide_eq_true_eq] at h
    simp [wNeeded, h.1]
  · decide
  · decide
  · intro ni hni oldF holdF
    simp only [wImports, List.mem_singleton] at hni
    subst hni
    simp only [wLock, wLockFile, alookup, if_true, eq_self_iff_true,
      Option.some.injEq] at holdF
    refine ⟨wSnapFile, by decide, ?_, ?_, by decide, ?_, ?_⟩
    · rw [← holdF]
      decide
    · rw [← holdF]
      decide
    · intro pkg hp
      have hpu : pkg = ['u'] := by simpa [wNeeded] using hp
      subst hpu
      rw [← holdF]
      decide
    · rw [← holdF]
      decide

end CargoVet
